import Mathlib

/-!
Verification of core-config-seed-go: flattening of decoded configuration values and
seeding of the registry.

A shallow embedding of `main.go`: the recursive `traverse` that flattens a decoded
document into key/value pairs, and the two directory walks (`loadV2ConfigFromPath`,
`loadConfigFromPath`) that PUT the pairs into the Consul key/value store.
-/

namespace ConfigSeed

/-! ## Decoded values and the flattener (`main.go`, `traverse`) -/

/-- The dynamic values `traverse` switches on (Go `interface{}`).  One constructor per
case of the type switch; `str` and `other` are the two ways of reaching the `default`
case: the value is a `string`, or it has any other dynamic type (for instance the
`time.Time` a TOML date-time decodes to).  A `map[string]interface{}` is given as the
list of its pairs in the order the `range` loop visits them.  A `float64` is given by
its IEEE-754 bit pattern. -/
inductive Value where
  | seq (xs : List Value)
  | map (kvs : List (String × Value))
  | int (n : Int)
  | int64 (n : Int)
  | float64 (bits : Nat)
  | bool (b : Bool)
  | null
  | str (s : String)
  | other (typeName : String)

/-- The Go struct `KV` (main.go line 462): one flattened key/value pair. -/
structure KV where
  Key : String
  Value : String
deriving DecidableEq

/-- What a Go call returning `(T, error)` can do: return a value with a nil error,
return a non-nil error, or not return at all because of a run-time panic. -/
inductive Result (α : Type) where
  | ok (a : α)
  | err (e : String)
  | panic
deriving DecidableEq

/-- Width in bits of the Go type `int` on the 64-bit targets the service is built for. -/
def intSize : Nat := 64

/-- The Go conversion `int(x)` of an `int64`: keeps the low `intSize` bits, read as a
two's complement number. -/
def toInt (x : Int) : Int :=
  (x + 2 ^ (intSize - 1)) % 2 ^ intSize - 2 ^ (intSize - 1)

/-- The Go library function `strconv.Itoa`: the decimal numeral of an integer. -/
def Itoa (i : Int) : String :=
  match i with
  | Int.ofNat n => Nat.repr n
  | Int.negSucc n => "-" ++ Nat.repr (n + 1)

/-- The Go library function `strconv.FormatBool`. -/
def FormatBool (b : Bool) : String :=
  if b then "true" else "false"

mutual
/-- The function `traverse` (main.go lines 468-512).  `FormatFloat` stands for
`strconv.FormatFloat(·, 'f', -1, 64)` on the bit pattern of the float. -/
def traverse (FormatFloat : Nat → String) (path : String) (j : Value) : Result (List KV) :=
  match j with
  | .seq xs => traverseSeq FormatFloat (if path ≠ "" then path ++ "/" else "") 0 xs []
  | .map m => traverseMap FormatFloat (if path ≠ "" then path ++ "/" else "") m []
  | .int n => .ok [⟨path, Itoa n⟩]
  | .int64 n => .ok [⟨path, Itoa (toInt n)⟩]
  | .float64 f => .ok [⟨path, FormatFloat f⟩]
  | .bool b => .ok [⟨path, FormatBool b⟩]
  | .null => .ok [⟨path, ""⟩]
  | .str s => .ok [⟨path, s⟩]
  | .other _ => .panic
/-- The loop `for sk, sv := range j.([]interface{})` of `traverse`, from index `sk` on,
with `kvs` the entries appended so far. -/
def traverseSeq (FormatFloat : Nat → String) (pathPre : String) (sk : Nat)
    (xs : List Value) (kvs : List KV) : Result (List KV) :=
  match xs with
  | [] => .ok kvs
  | sv :: rest =>
    match traverse FormatFloat (pathPre ++ Itoa (Int.ofNat sk)) sv with
    | .ok skvs => traverseSeq FormatFloat pathPre (sk + 1) rest (kvs ++ skvs)
    | .err e => .err e
    | .panic => .panic
/-- The loop `for sk, sv := range j.(map[string]interface{})` of `traverse`, over the
pairs still to visit, with `kvs` the entries appended so far. -/
def traverseMap (FormatFloat : Nat → String) (pathPre : String)
    (m : List (String × Value)) (kvs : List KV) : Result (List KV) :=
  match m with
  | [] => .ok kvs
  | (sk, sv) :: rest =>
    match traverse FormatFloat (pathPre ++ sk) sv with
    | .ok skvs => traverseMap FormatFloat pathPre rest (kvs ++ skvs)
    | .err e => .err e
    | .panic => .panic
end

mutual
/-- Number of scalar and null leaves of a value. -/
def Value.leaves : Value → Nat
  | .seq xs => leavesSeq xs
  | .map m => leavesMap m
  | _ => 1
/-- Leaves of the elements of a sequence. -/
def leavesSeq : List Value → Nat
  | [] => 0
  | v :: rest => v.leaves + leavesSeq rest
/-- Leaves of the values of a mapping. -/
def leavesMap : List (String × Value) → Nat
  | [] => 0
  | (_, v) :: rest => v.leaves + leavesMap rest
end

mutual
/-- A Hierarchical Value of the data model: sequences, mappings, integers, floats,
booleans, strings and null, and nothing of another dynamic type. -/
def Value.hierarchical : Value → Bool
  | .seq xs => hierarchicalSeq xs
  | .map m => hierarchicalMap m
  | .other _ => false
  | _ => true
/-- Every element of the sequence is hierarchical. -/
def hierarchicalSeq : List Value → Bool
  | [] => true
  | v :: rest => v.hierarchical && hierarchicalSeq rest
/-- Every value of the mapping is hierarchical. -/
def hierarchicalMap : List (String × Value) → Bool
  | [] => true
  | (_, v) :: rest => v.hierarchical && hierarchicalMap rest
end

/-- Concatenation, left to right, of the results of the children of a node: the first
child that does not return a list decides the outcome, as in the loops of `traverse`. -/
def concatAll : List (Result (List KV)) → Result (List KV)
  | [] => .ok []
  | .ok a :: rs =>
    match concatAll rs with
    | .ok b => .ok (a ++ b)
    | .err e => .err e
    | .panic => .panic
  | .err e :: _ => .err e
  | .panic :: _ => .panic

/-! ## Decimal numerals (what the specification asks of an integer's serialization) -/

/-- Value of a list of decimal digit characters, most significant first. -/
def digitsVal (cs : List Char) : Nat :=
  cs.foldl (fun a c => 10 * a + (c.toNat - 48)) 0

/-- The characters `cs` are the decimal numeral of the natural number `n`: at least one
character, decimal digits only, of value `n`, and no leading zero (zero is `0`). -/
def isDecimalNat (cs : List Char) (n : Nat) : Bool :=
  !cs.isEmpty && cs.all Char.isDigit && digitsVal cs == n &&
    (cs.head? != some '0' || cs == ['0'])

/-- The string `s` is the decimal numeral of the integer `i`: the numeral of `i` when
`i` is not negative, and `-` followed by the numeral of `-i` when it is. -/
def isDecimal (s : String) (i : Int) : Bool :=
  match i with
  | Int.ofNat n => isDecimalNat s.data n
  | Int.negSucc n =>
    match s.data with
    | '-' :: cs => isDecimalNat cs (n + 1)
    | _ => false

/-! ## Conditions on the keys of the mappings of a value -/

mutual
/-- Within every mapping of the value the keys are pairwise distinct (as in any Go map). -/
def Value.uniqueKeys : Value → Bool
  | .seq xs => uniqueKeysSeq xs
  | .map m => decide ((m.map Prod.fst).Nodup) && uniqueKeysMap m
  | _ => true
/-- `Value.uniqueKeys` for the elements of a sequence. -/
def uniqueKeysSeq : List Value → Bool
  | [] => true
  | v :: rest => v.uniqueKeys && uniqueKeysSeq rest
/-- `Value.uniqueKeys` for the values of a mapping. -/
def uniqueKeysMap : List (String × Value) → Bool
  | [] => true
  | (_, v) :: rest => v.uniqueKeys && uniqueKeysMap rest
end

/-- A key that can serve as one path segment: not empty and without the separator `/`. -/
def plainKey (k : String) : Bool :=
  !k.data.isEmpty && !k.data.contains '/'

mutual
/-- Every key of every mapping of the value is a plain key. -/
def Value.plainKeys : Value → Bool
  | .seq xs => plainKeysSeq xs
  | .map m => plainKeysMap m
  | _ => true
/-- `Value.plainKeys` for the elements of a sequence. -/
def plainKeysSeq : List Value → Bool
  | [] => true
  | v :: rest => v.plainKeys && plainKeysSeq rest
/-- The keys of the mapping are plain, and so are the keys inside its values. -/
def plainKeysMap : List (String × Value) → Bool
  | [] => true
  | (k, v) :: rest => plainKey k && v.plainKeys && plainKeysMap rest
end

/-- The key `k` is the path `q` itself or continues it after a `/`: the keys found at
and below the node of path `q`. -/
def Under (q k : List Char) : Prop :=
  k = q ∨ ∃ r, k = q ++ '/' :: r

/-! ## Process configuration, path helpers and profile selection -/

/-- Modelled from the spec: the process configuration `pkg.CoreConfig` (its declaration
is not among the sources), with the fields that `main.go` reads: registry protocol,
host and port, fail limit and wait time of the reachability check, global key prefix,
reset flag, the two configuration roots and the accepted extensions per format. -/
structure CoreConfig where
  ConfigPath : String
  ConfigPathV2 : String
  GlobalPrefix : String
  ConsulProtocol : String
  ConsulHost : String
  ConsulPort : Int
  IsReset : Bool
  FailLimit : Int
  FailWaitTime : Int
  AcceptablePropertyExtensions : List String
  YamlExtensions : List String
  TomlExtensions : List String

/-- The constant `configDefault` (main.go line 47). -/
def configDefault : String := "configuration.toml"

/-- The function `determineConfigFile` (main.go lines 121-126). -/
def determineConfigFile (profile : String) : String :=
  if profile = "" then configDefault else "configuration-" ++ profile ++ ".toml"

/-- The function `determineCorrectConfigFile` (main.go lines 128-134). -/
def determineCorrectConfigFile (targetConfig : String) (fileName : String) : Bool :=
  if fileName = targetConfig then true else false

/-- The scan of `filepath.Ext` from the end of the path: `rev` holds the characters not
yet seen, last first, and `acc` the suffix already passed. -/
def extRev : List Char → List Char → List Char
  | [], _ => []
  | c :: rev, acc =>
    if c = '/' then [] else if c = '.' then c :: acc else extRev rev (c :: acc)

/-- The Go library function `filepath.Ext`: the suffix of the last element of the path
that begins at its final dot, empty when there is no dot. -/
def Ext (path : String) : String :=
  ⟨extRev path.data.reverse []⟩

/-- The function `isAcceptablePropertyExtensions` (main.go lines 360-367). -/
def isAcceptablePropertyExtensions (coreConfig : CoreConfig) (file : String) : Bool :=
  coreConfig.AcceptablePropertyExtensions.any fun v => v == Ext file

/-- The function `isYamlExtension` (main.go lines 370-377). -/
def isYamlExtension (coreConfig : CoreConfig) (file : String) : Bool :=
  coreConfig.YamlExtensions.any fun v => v == Ext file

/-- The function `isTomlExtension` (main.go lines 379-386). -/
def isTomlExtension (coreConfig : CoreConfig) (file : String) : Bool :=
  coreConfig.TomlExtensions.any fun v => v == Ext file

/-- The scan of `filepath.Split` for the last `/`: `rev` holds the characters not yet
seen, last first, and `acc` the file name already passed. -/
def splitRev : List Char → List Char → List Char × List Char
  | [], acc => ([], acc)
  | c :: rev, acc =>
    if c = '/' then ((c :: rev).reverse, acc) else splitRev rev (c :: acc)

/-- The Go library function `filepath.Split`: the path up to and including its last
`/`, and the file name after it. -/
def Split (path : String) : String × String :=
  (⟨(splitRev path.data.reverse []).1⟩, ⟨(splitRev path.data.reverse []).2⟩)

/-- The Go library function `strings.TrimPrefix`. -/
def TrimPrefix (s : String) (pre : String) : String :=
  if pre.data.isPrefixOf s.data then ⟨s.data.drop pre.data.length⟩ else s

/-! ## The registry, seen through the hooks `consulPut` and `consulDeleteTree` -/

/-- The struct `consulapi.KVPair` as `main.go` fills it: a key and the bytes of a
value, here the string those bytes spell. -/
structure KVPair where
  Key : String
  Value : String
deriving DecidableEq

/-- A request sent to the registry. -/
inductive Request where
  | put (p : KVPair)
  | deleteTree (pre : String)
deriving DecidableEq

/-- One call of a registry hook: the request and the error it returned, if any. -/
structure Call where
  request : Request
  error : Option String
deriving DecidableEq

/-- The calls made so far in a run, oldest first. -/
abbrev Trace := List Call

/-- The contents of the registry: the value stored under each key, if any. -/
abbrev Registry := String → Option String

/-- The effect of one call on the registry: a PUT that succeeds overwrites the value of
its key, a recursive delete that succeeds removes every key that starts with the
prefix, and a call that returns an error changes nothing. -/
def applyCall (s : Registry) (c : Call) : Registry :=
  match c.error, c.request with
  | none, .put p => fun k => if k = p.Key then some p.Value else s k
  | none, .deleteTree pre => fun k => if pre.data.isPrefixOf k.data then none else s k
  | some _, _ => s

/-- The registry after the calls of a trace, oldest first. -/
def replay (t : Trace) (s : Registry) : Registry :=
  t.foldl applyCall s

/-- One invocation of the callback by `filepath.Walk`: the path, what `info.IsDir()` and
`info.Name()` answer, and the error `Walk` passes in. -/
structure WalkEntry where
  path : String
  isDir : Bool
  name : String
  err : Option String

/-- What the run finds outside the program: the file system, the decoders, the
registry as it is when the run starts, and how the registry and the decoder that reads
it back behave. -/
structure Env where
  /-- The contents of the registry when the run starts. -/
  registry : Registry
  /-- The error of the PUT made when `n` calls have been made before, if it fails. -/
  putErr : Nat → KVPair → Option String
  /-- The error of `consulDeleteTree` on a prefix, if it fails. -/
  deleteTreeErr : String → Option String
  /-- The callback invocations of `filepath.Walk` on a root, in walk order. -/
  walk : String → List WalkEntry
  /-- The result of `filepath.Rel(".", root)`. -/
  rel : String → Except String String
  /-- The map of `toml.LoadFile(path)`, in iteration order; `none` when loading fails
  (the error is dropped and the tree is nil). -/
  loadToml : String → Option (List (String × Value))
  /-- The formatter `strconv.FormatFloat(·, 'f', -1, 64)`. -/
  FormatFloat : Nat → String
  /-- The result of `readTomlFile`, pairs in iteration order. -/
  readTomlFile : String → Except String (List (String × String))
  /-- The result of `ioutil.ReadFile` followed by `yaml.Unmarshal` in `readYamlFile`:
  the decoded pairs, or the error of the step that failed. -/
  yamlUnmarshal : String → Except String (List (String × String))
  /-- The result of `readPropertiesFile`, pairs in iteration order. -/
  readPropertiesFile : String → Except String (List (String × String))
  /-- Whether the decoder started after the PUTs of the file at `path`, which reads the
  registry as it then is, delivers an update within the second the `select` waits. -/
  readBack : String → Registry → Bool
  /-- The value of `pkg.CoreConfiguration.GlobalPrefix`, a package-level variable. -/
  CoreConfigurationGlobalPrefix : String

/-- The hook `consulPut`: the call is recorded with the error it returns. -/
def consulPut (env : Env) (p : KVPair) (t : Trace) : Trace × Option String :=
  (t ++ [⟨.put p, env.putErr t.length p⟩], env.putErr t.length p)

/-- The two PUT loops (main.go lines 262-267 and 343-348) on the pairs they build: one
PUT per pair, in order, stopping with the error of the first PUT that fails. -/
def putLoop (env : Env) : List KVPair → Trace → Trace × Option String
  | [], t => (t, none)
  | p :: rest, t =>
    match consulPut env p t with
    | (t1, some e) => (t1, some e)
    | (t1, none) => putLoop env rest t1

/-- The function `removeStoredConfig` (main.go lines 169-176): one recursive delete
under the package-level global prefix; an error is printed and nothing is returned. -/
def removeStoredConfig (env : Env) (t : Trace) : Trace :=
  t ++ [⟨.deleteTree env.CoreConfigurationGlobalPrefix,
    env.deleteTreeErr env.CoreConfigurationGlobalPrefix⟩]

/-- A Go result `(value, error)` of a call that cannot panic. -/
def Result.ofExcept {α : Type} : Except String α → Result α
  | .ok a => .ok a
  | .error x => .err x

/-- The function `readYamlFile` (main.go lines 423-444): the error of reading or of
`yaml.Unmarshal` is returned; when both succeed, `structs.Map` is called on the map
`configProps`, which is not a struct, and panics. -/
def readYamlFile (env : Env) (filePath : String) : Result (List (String × String)) :=
  match env.yamlUnmarshal filePath with
  | .error x => .err x
  | .ok _ => .panic

/-- The function `readPropertyFile` (main.go lines 195-208). -/
def readPropertyFile (coreConfig : CoreConfig) (env : Env) (filePath : String) :
    Result (List (String × String)) :=
  if isTomlExtension coreConfig filePath then Result.ofExcept (env.readTomlFile filePath)
  else if isYamlExtension coreConfig filePath then readYamlFile env filePath
  else Result.ofExcept (env.readPropertiesFile filePath)

/-- The Go library function `filepath.Walk` with a callback that never returns
`SkipDir`: the callback is invoked on each entry in turn, and the first error it
returns stops the walk and is the result of `Walk`. -/
def Walk (fn : WalkEntry → Trace → Trace × Result Unit) :
    List WalkEntry → Trace → Trace × Result Unit
  | [], t => (t, .ok ())
  | e :: es, t =>
    match fn e t with
    | (t1, .ok _) => Walk fn es t1
    | (t1, .err x) => (t1, .err x)
    | (t1, .panic) => (t1, .panic)

/-- The callback of `loadV2ConfigFromPath` from the trimming of the directory on
(main.go lines 240-302), for a file that passed the filters. -/
def v2Process (coreConfig : CoreConfig) (env : Env) (path dir configPath : String)
    (t : Trace) : Trace × Result Unit :=
  let dir := TrimPrefix dir (configPath ++ "/")
  match env.loadToml path with
  | none => (t, .panic)
  | some m =>
    match traverse env.FormatFloat "" (.map m) with
    | .panic => (t, .panic)
    | r =>
      let kvs := match r with
        | .ok kvs => kvs
        | _ => []
      let pre := coreConfig.GlobalPrefix ++ "/" ++ dir
      match putLoop env (kvs.map fun v => ⟨pre ++ v.Key, v.Value⟩) t with
      | (t1, some e) => (t1, .err e)
      | (t1, none) =>
        if env.readBack path (replay t1 env.registry) then (t1, .ok ()) else (t1, .panic)

/-- The callback passed to `filepath.Walk` in `loadV2ConfigFromPath` (main.go lines
216-303). -/
def v2WalkFn (profile : String) (coreConfig : CoreConfig) (env : Env) (e : WalkEntry)
    (t : Trace) : Trace × Result Unit :=
  match e.err with
  | some x => (t, .err x)
  | none =>
    if e.isDir || !isAcceptablePropertyExtensions coreConfig e.name then (t, .ok ())
    else
      match env.rel coreConfig.ConfigPathV2 with
      | .error x => (t, .err x)
      | .ok configPath =>
        if !determineCorrectConfigFile (determineConfigFile profile) (Split e.path).2 then
          (t, .ok ())
        else v2Process coreConfig env e.path (Split e.path).1 configPath t

/-- The function `loadV2ConfigFromPath` (main.go lines 214-311): the error of the walk
is printed and the function returns. -/
def loadV2ConfigFromPath (profile : String) (coreConfig : CoreConfig) (env : Env)
    (t : Trace) : Trace × Result Unit :=
  match Walk (v2WalkFn profile coreConfig env) (env.walk coreConfig.ConfigPathV2) t with
  | (t1, .panic) => (t1, .panic)
  | (t1, _) => (t1, .ok ())

/-- The callback of `loadConfigFromPath` from the trimming of the directory on
(main.go lines 331-349), for a file that passed the filter. -/
def v1Process (coreConfig : CoreConfig) (env : Env) (path dir configPath : String)
    (t : Trace) : Trace × Result Unit :=
  let dir := TrimPrefix dir (configPath ++ "/")
  match readPropertyFile coreConfig env path with
  | .err x => (t, .err x)
  | .panic => (t, .panic)
  | .ok props =>
    let pre := coreConfig.GlobalPrefix ++ "/" ++ dir
    match putLoop env (props.map fun kv => ⟨pre ++ kv.1, kv.2⟩) t with
    | (t1, some e) => (t1, .err e)
    | (t1, none) => (t1, .ok ())

/-- The callback passed to `filepath.Walk` in `loadConfigFromPath` (main.go lines
315-350). -/
def v1WalkFn (coreConfig : CoreConfig) (env : Env) (e : WalkEntry) (t : Trace) :
    Trace × Result Unit :=
  match e.err with
  | some x => (t, .err x)
  | none =>
    if e.isDir || !isAcceptablePropertyExtensions coreConfig e.name then (t, .ok ())
    else
      match env.rel coreConfig.ConfigPath with
      | .error x => (t, .err x)
      | .ok configPath => v1Process coreConfig env e.path (Split e.path).1 configPath t

/-- The function `loadConfigFromPath` (main.go lines 314-358): the error of the walk
is printed and the function returns. -/
def loadConfigFromPath (coreConfig : CoreConfig) (env : Env) (t : Trace) :
    Trace × Result Unit :=
  match Walk (v1WalkFn coreConfig env) (env.walk coreConfig.ConfigPath) t with
  | (t1, .panic) => (t1, .panic)
  | (t1, _) => (t1, .ok ())

/-- The function `main` (main.go lines 65-104) after flag parsing; the results of
`config.LoadFromFile` and of `getConsulClient` are given. -/
def main (profile : String) (loaded : Except String CoreConfig) (client : Except String Unit)
    (env : Env) : Trace × Result Unit :=
  match loaded with
  | .error _ => ([], .ok ())
  | .ok coreConfig =>
    match client with
    | .error _ => ([], .ok ())
    | .ok _ =>
      let t0 := if coreConfig.IsReset then removeStoredConfig env [] else []
      match loadV2ConfigFromPath profile coreConfig env t0 with
      | (t1, .panic) => (t1, .panic)
      | (t1, _) => loadConfigFromPath coreConfig env t1

/-- The installation as a run finds it when `k` registry calls have already been made
and have left the registry as it was: the outcome of its `n`-th PUT is the outcome of
call `k + n` of the original. -/
def Env.after (env : Env) (k : Nat) : Env :=
  { env with putErr := fun n p => env.putErr (k + n) p }

/-- The installation as a run finds it after the calls `t0`: the registry holds what
they left, and the outcome of its `n`-th PUT is the outcome of call `t0.length + n` of
the original. -/
def Env.afterCalls (env : Env) (t0 : Trace) : Env :=
  { env with
    registry := replay t0 env.registry
    putErr := fun n p => env.putErr (t0.length + n) p }

/-- The calls `t0` made earlier, followed by the calls of a result. -/
def after {α : Type} (t0 : Trace) (r : Trace × α) : Trace × α :=
  (t0 ++ r.1, r.2)

/-- The walk path of the file `file` in the directory `d` below the root (`d` empty for
a file directly at the root), as `filepath.Walk` builds it. -/
def walkPath (root d file : String) : String :=
  if d = "" then root ++ "/" ++ file else root ++ "/" ++ d ++ "/" ++ file

/-- The registry key of the written layout: global prefix, relative directory and
flattened path, joined by `/` (no directory segment when `d` is empty). -/
def registryKey (globalPrefix d path : String) : String :=
  if d = "" then globalPrefix ++ "/" ++ path else globalPrefix ++ "/" ++ d ++ "/" ++ path

/-! ## A sample installation, used to evaluate the definitions -/

/-- A process configuration with the reset flag set. -/
def sampleConfig : CoreConfig where
  ConfigPath := "res/properties"
  ConfigPathV2 := "res/v2"
  GlobalPrefix := "config"
  ConsulProtocol := "http"
  ConsulHost := "localhost"
  ConsulPort := 8500
  IsReset := true
  FailLimit := 30
  FailWaitTime := 3
  AcceptablePropertyExtensions := [".yaml", ".yml", ".properties", ".toml"]
  YamlExtensions := [".yaml", ".yml"]
  TomlExtensions := [".toml"]

/-- The entry of the profile file `configuration-dev.toml` of the service `core-data`. -/
def sampleDevEntry : WalkEntry :=
  ⟨"res/v2/core-data/configuration-dev.toml", false, "configuration-dev.toml", none⟩

/-- The entry of the default file `configuration.toml` next to it. -/
def sampleDefaultEntry : WalkEntry :=
  ⟨"res/v2/core-data/configuration.toml", false, "configuration.toml", none⟩

/-- The entry of a legacy properties file. -/
def samplePropsEntry : WalkEntry :=
  ⟨"res/properties/core-data/application.properties", false, "application.properties", none⟩

/-- The entry of a second legacy properties file, later in the walk. -/
def sampleLaterEntry : WalkEntry :=
  ⟨"res/properties/metadata/application.properties", false, "application.properties", none⟩

/-- The decoded contents of both TOML files of the sample. -/
def sampleToml : List (String × Value) :=
  [("Service", .map [("Host", .str "localhost"), ("Port", .int64 48080)])]

/-- An installation in which every registry call succeeds: two sibling TOML files under
the structured root and one properties file under the legacy root. -/
def sampleEnv : Env where
  registry := fun _ => none
  putErr := fun _ _ => none
  deleteTreeErr := fun _ => none
  walk := fun root =>
    if root = "res/v2" then
      [⟨"res/v2", true, "v2", none⟩, ⟨"res/v2/core-data", true, "core-data", none⟩,
        sampleDevEntry, sampleDefaultEntry]
    else if root = "res/properties" then
      [⟨"res/properties", true, "properties", none⟩,
        ⟨"res/properties/core-data", true, "core-data", none⟩, samplePropsEntry]
    else []
  rel := fun root => .ok root
  loadToml := fun _ => some sampleToml
  FormatFloat := fun _ => "0"
  readTomlFile := fun _ => .ok []
  yamlUnmarshal := fun _ => .ok []
  readPropertiesFile := fun _ => .ok [("server.port", "48080"), ("server.host", "localhost")]
  readBack := fun _ _ => true
  CoreConfigurationGlobalPrefix := "config"

/-- The sample installation with a registry whose recursive delete fails. -/
def resetFailsEnv : Env :=
  { sampleEnv with deleteTreeErr := fun _ => some "Unexpected response code: 500" }

/-- An installation with two legacy files and no structured file; the first legacy file
cannot be decoded. -/
def decodeFailsEnv : Env :=
  { sampleEnv with
    walk := fun root =>
      if root = "res/properties" then [samplePropsEntry, sampleLaterEntry] else []
    readPropertiesFile := fun path =>
      if path = "res/properties/core-data/application.properties" then
        .error "open res/properties/core-data/application.properties: permission denied"
      else .ok [("server.port", "48081")] }

/-- The sample installation with two legacy files, where the first call of the run is
refused by the registry. -/
def putFailsEnv : Env :=
  { sampleEnv with
    walk := fun root =>
      if root = "res/properties" then [samplePropsEntry, sampleLaterEntry] else []
    putErr := fun n _ => if n = 0 then some "Unexpected response code: 500" else none }

/-! ## The reachability check of `getConsulClient` -/

/-- The constant `consulStatusPath` (main.go line 46). -/
def consulStatusPath : String := "/v1/agent/self"

/-- What one call of the hook `httpGet` returns: a transport error, or a response with
its status code. -/
inductive GetOutcome where
  | error (e : String)
  | response (statusCode : Int)

/-- The `for` loop of `getConsulClient` (main.go lines 144-156), from the state with
`fails` failures counted and `gets` GET requests made; `httpGet n` is the outcome of
GET number `n`.  The result is the final value of `fails` and the number of GET
requests made, or `none` when the loop has not ended within `fuel` iterations. -/
def pollLoop (failLimit : Int) (httpGet : Nat → GetOutcome) :
    Nat → Int → Nat → Option (Int × Nat)
  | 0, _, _ => none
  | fuel + 1, fails, gets =>
    if fails < failLimit then
      match httpGet gets with
      | .error _ => pollLoop failLimit httpGet fuel (fails + 1) (gets + 1)
      | .response statusCode =>
        if statusCode ≥ 200 ∧ statusCode < 300 then some (fails, gets + 1)
        else pollLoop failLimit httpGet fuel fails (gets + 1)
    else some (fails, gets)

/-- The function `getConsulClient` (main.go lines 138-166): `httpGet url n` is the
outcome of GET number `n` on `url`, and `consulNewClient` the result of creating the
client for an address.  The result is what the function returns together with the
number of GET requests it made, or `none` when it has not returned within `fuel`
iterations of its loop. -/
def getConsulClient (coreConfig : CoreConfig) (httpGet : String → Nat → GetOutcome)
    (consulNewClient : String → Except String Unit) (fuel : Nat) :
    Option (Except String Unit × Nat) :=
  let consulUrl := coreConfig.ConsulProtocol ++ "://" ++ coreConfig.ConsulHost ++ ":" ++
    Itoa coreConfig.ConsulPort
  match pollLoop coreConfig.FailLimit (httpGet (consulUrl ++ consulStatusPath)) fuel 0 0 with
  | none => none
  | some (fails, gets) =>
    if fails ≥ coreConfig.FailLimit then some (.error "Cannot get connection to Consul", gets)
    else some (consulNewClient consulUrl, gets)

/-- An agent that answers every GET with the status 503. -/
def unavailableAgent : String → Nat → GetOutcome :=
  fun _ _ => .response 503

/-- An agent that answers 503 twice and then 200. -/
def slowAgent : String → Nat → GetOutcome :=
  fun _ n => if n < 2 then .response 503 else .response 200

/-- An agent that cannot be reached. -/
def unreachableAgent : String → Nat → GetOutcome :=
  fun _ _ => .error "connection refused"

/-! ## Samples for the reset, the read-back and the extension filter -/

/-- A registry that holds one key of an earlier run below the prefix `config` and one key
of another application. -/
def staleRegistry : Registry :=
  fun k =>
    if k = "config/core-data/obsolete" then some "1"
    else if k = "vault/token" then some "s3" else none

/-- The sample installation on the registry `staleRegistry`, when the package-level
variable `pkg.CoreConfiguration` was never assigned and its prefix is empty, while the
loaded configuration has the prefix `config`. -/
def otherPrefixEnv : Env :=
  { sampleEnv with registry := staleRegistry, CoreConfigurationGlobalPrefix := "" }

/-- The same installation when the package-level variable holds the prefix `edgex`. -/
def edgexPrefixEnv : Env :=
  { sampleEnv with registry := staleRegistry, CoreConfigurationGlobalPrefix := "edgex" }

/-- The entry of a file whose extension is not accepted. -/
def sampleReadmeEntry : WalkEntry :=
  ⟨"res/v2/core-data/README.md", false, "README.md", none⟩

/-- The sample configuration without the reset flag. -/
def noResetConfig : CoreConfig :=
  { sampleConfig with IsReset := false }

/-- An installation with an empty registry and two structured files that write the same
key `config/EdgeX_Core_Command/Service/Port`: the file in the directory `Service`, which
the walk visits first, and the file of the directory above it, which also writes
`Service/Timeout`, with the text `soon` where an integer is expected.  The decoder of
the read-back delivers its update unless the registry holds that text for
`Service/Timeout`, which it cannot decode. -/
def readBackEnv : Env :=
  { sampleEnv with
    walk := fun root =>
      if root = "res/v2" then
        [⟨"res/v2", true, "v2", none⟩,
          ⟨"res/v2/EdgeX_Core_Command", true, "EdgeX_Core_Command", none⟩,
          ⟨"res/v2/EdgeX_Core_Command/Service", true, "Service", none⟩,
          ⟨"res/v2/EdgeX_Core_Command/Service/configuration.toml", false,
            "configuration.toml", none⟩,
          ⟨"res/v2/EdgeX_Core_Command/configuration.toml", false, "configuration.toml", none⟩]
      else []
    loadToml := fun path =>
      if path = "res/v2/EdgeX_Core_Command/Service/configuration.toml" then
        some [("Port", .int64 48080)]
      else some [("Service", .map [("Port", .int64 48082), ("Timeout", .str "soon")])]
    readBack := fun _ s => s "config/EdgeX_Core_Command/Service/Timeout" != some "soon" }

/-- The installation a second run finds: the one of the first run, with the registry as
the first run left it. -/
def Env.secondRun (profile : String) (coreConfig : CoreConfig) (env : Env) : Env :=
  { env with
    registry := replay (main profile (.ok coreConfig) (.ok ()) env).1 env.registry }

/-- A legacy YAML file of the sample installation. -/
def sampleYamlEntry : WalkEntry :=
  ⟨"res/properties/core-data/application.yaml", false, "application.yaml", none⟩

/-- The sample installation when `yaml.Unmarshal` decodes the YAML file to one pair. -/
def yamlEnv : Env :=
  { sampleEnv with yamlUnmarshal := fun _ => .ok [("port", "48080")] }

/-! ## Paths of the empty sequences and mappings of a value -/

mutual
/-- The paths, built as `traverse` builds them, of the empty sequences and the empty
mappings in a value that is traversed under `path`. -/
def emptyPaths (path : String) (j : Value) : List String :=
  match j with
  | .seq xs =>
    if xs.isEmpty then [path]
    else emptyPathsSeq (if path ≠ "" then path ++ "/" else "") 0 xs
  | .map m =>
    if m.isEmpty then [path]
    else emptyPathsMap (if path ≠ "" then path ++ "/" else "") m
  | .int _ => []
  | .int64 _ => []
  | .float64 _ => []
  | .bool _ => []
  | .null => []
  | .str _ => []
  | .other _ => []
/-- The paths of the empty sequences and mappings in the elements of a sequence, from
index `sk` on. -/
def emptyPathsSeq (pathPre : String) (sk : Nat) (xs : List Value) : List String :=
  match xs with
  | [] => []
  | sv :: rest =>
    emptyPaths (pathPre ++ Itoa (Int.ofNat sk)) sv ++ emptyPathsSeq pathPre (sk + 1) rest
/-- The paths of the empty sequences and mappings in the values of a mapping. -/
def emptyPathsMap (pathPre : String) (m : List (String × Value)) : List String :=
  match m with
  | [] => []
  | (sk, sv) :: rest => emptyPaths (pathPre ++ sk) sv ++ emptyPathsMap pathPre rest
end

/-! ## The loops of `traverse` -/

theorem traverseSeq_acc (F : Nat → String) (P : String) :
    ∀ (xs : List Value) (sk : Nat) (kvs : List KV),
      traverseSeq F P sk xs kvs =
        match traverseSeq F P sk xs [] with
        | .ok r => .ok (kvs ++ r)
        | .err e => .err e
        | .panic => .panic := by
  intro xs
  induction xs with
  | nil => intro sk kvs; simp [traverseSeq]
  | cons v rest ih =>
    intro sk kvs
    rw [traverseSeq, traverseSeq]
    cases h : traverse F (P ++ Itoa (Int.ofNat sk)) v with
    | ok a =>
      simp only []
      rw [ih (sk + 1) (kvs ++ a), ih (sk + 1) ([] ++ a)]
      cases traverseSeq F P (sk + 1) rest [] <;> simp
    | err e => rfl
    | panic => rfl

theorem traverseMap_acc (F : Nat → String) (P : String) :
    ∀ (m : List (String × Value)) (kvs : List KV),
      traverseMap F P m kvs =
        match traverseMap F P m [] with
        | .ok r => .ok (kvs ++ r)
        | .err e => .err e
        | .panic => .panic := by
  intro m
  induction m with
  | nil => intro kvs; simp [traverseMap]
  | cons kv rest ih =>
    intro kvs
    obtain ⟨k, v⟩ := kv
    rw [traverseMap, traverseMap]
    cases h : traverse F (P ++ k) v with
    | ok a =>
      simp only []
      rw [ih (kvs ++ a), ih ([] ++ a)]
      cases traverseMap F P rest [] <;> simp
    | err e => rfl
    | panic => rfl

theorem traverseSeq_concat (F : Nat → String) (P : String) :
    ∀ (xs : List Value) (sk : Nat),
      traverseSeq F P sk xs [] =
        concatAll ((xs.enumFrom sk).map fun iv =>
          traverse F (P ++ Itoa (Int.ofNat iv.1)) iv.2) := by
  intro xs
  induction xs with
  | nil => intro sk; simp [traverseSeq, concatAll]
  | cons v rest ih =>
    intro sk
    rw [traverseSeq]
    simp only [List.enumFrom_cons, List.map_cons]
    cases h : traverse F (P ++ Itoa (Int.ofNat sk)) v with
    | ok a =>
      simp only [concatAll]
      rw [traverseSeq_acc, ih (sk + 1)]
      simp
    | err e => simp [concatAll]
    | panic => simp [concatAll]

theorem traverseMap_concat (F : Nat → String) (P : String) :
    ∀ (m : List (String × Value)),
      traverseMap F P m [] =
        concatAll (m.map fun kv => traverse F (P ++ kv.1) kv.2) := by
  intro m
  induction m with
  | nil => simp [traverseMap, concatAll]
  | cons kv rest ih =>
    obtain ⟨k, v⟩ := kv
    rw [traverseMap]
    simp only [List.map_cons]
    cases h : traverse F (P ++ k) v with
    | ok a =>
      simp only [concatAll]
      rw [traverseMap_acc, ih]
      simp
    | err e => simp [concatAll]
    | panic => simp [concatAll]

theorem empty_append (s : String) : "" ++ s = s := by
  apply String.ext
  simp

theorem pathPre_append (p seg : String) :
    (if p ≠ "" then p ++ "/" else "") ++ seg = if p = "" then seg else p ++ "/" ++ seg := by
  by_cases h : p = ""
  · simp [h, empty_append]
  · simp [h]

theorem concatAll_ok (ls : List (List KV)) : concatAll (ls.map Result.ok) = .ok ls.flatten := by
  induction ls with
  | nil => rfl
  | cons a ls ih => simp [concatAll, ih]

/-- C1. Path construction: `traverse` of a sequence is the concatenation, in index
order, of `traverse` of each element under the path `p/i` (`i` the decimal zero-based
index); of a mapping, the concatenation over its pairs of `traverse` of each value
under `p/key`; with an empty `p` the child path is the index or key alone.  The
concatenation of children that all return lists is the list of their entries joined in
order, and the two examples of the specification evaluate as stated. -/
theorem traverse_path_construction (F : Nat → String) (p : String) :
    (∀ xs : List Value, traverse F p (.seq xs) =
        concatAll (xs.enum.map fun iv =>
          traverse F (if p = "" then Itoa (Int.ofNat iv.1) else p ++ "/" ++ Itoa (Int.ofNat iv.1)) iv.2)) ∧
    (∀ m : List (String × Value), traverse F p (.map m) =
        concatAll (m.map fun kv =>
          traverse F (if p = "" then kv.1 else p ++ "/" ++ kv.1) kv.2)) ∧
    (∀ ls : List (List KV), concatAll (ls.map Result.ok) = .ok ls.flatten) ∧
    traverse F "a" (.map [("b", .map [("c", .int 1)])]) = .ok [⟨"a/b/c", "1"⟩] ∧
    traverse F "" (.seq [.int 10, .int 20]) = .ok [⟨"0", "10"⟩, ⟨"1", "20"⟩] := by
  refine ⟨?_, ?_, concatAll_ok, ?_, ?_⟩
  · intro xs
    rw [traverse, traverseSeq_concat, List.enum]
    simp only [pathPre_append]
  · intro m
    rw [traverse, traverseMap_concat]
    simp only [pathPre_append]
  · rfl
  · rfl

mutual
theorem traverse_leaves (F : Nat → String) :
    ∀ (v : Value) (p : String), v.hierarchical = true →
      ∃ kvs, traverse F p v = .ok kvs ∧ kvs.length = v.leaves
  | .seq xs, p, h => by
    rw [traverse, Value.leaves]
    rw [Value.hierarchical] at h
    exact traverseSeq_leaves F xs _ 0 h
  | .map m, p, h => by
    rw [traverse, Value.leaves]
    rw [Value.hierarchical] at h
    exact traverseMap_leaves F m _ h
  | .int n, p, _ => by simp [traverse, Value.leaves]
  | .int64 n, p, _ => by simp [traverse, Value.leaves]
  | .float64 f, p, _ => by simp [traverse, Value.leaves]
  | .bool b, p, _ => by simp [traverse, Value.leaves]
  | .null, p, _ => by simp [traverse, Value.leaves]
  | .str s, p, _ => by simp [traverse, Value.leaves]
  | .other t, p, h => by simp [Value.hierarchical] at h
theorem traverseSeq_leaves (F : Nat → String) :
    ∀ (xs : List Value) (P : String) (sk : Nat), hierarchicalSeq xs = true →
      ∃ kvs, traverseSeq F P sk xs [] = .ok kvs ∧ kvs.length = leavesSeq xs
  | [], P, sk, _ => ⟨[], by rw [traverseSeq], rfl⟩
  | v :: rest, P, sk, h => by
    rw [hierarchicalSeq, Bool.and_eq_true] at h
    obtain ⟨a, ha, hla⟩ := traverse_leaves F v (P ++ Itoa (Int.ofNat sk)) h.1
    obtain ⟨b, hb, hlb⟩ := traverseSeq_leaves F rest P (sk + 1) h.2
    refine ⟨a ++ b, ?_, ?_⟩
    · rw [traverseSeq, ha]
      simp only []
      rw [traverseSeq_acc, hb]
      simp
    · rw [leavesSeq, List.length_append, hla, hlb]
theorem traverseMap_leaves (F : Nat → String) :
    ∀ (m : List (String × Value)) (P : String), hierarchicalMap m = true →
      ∃ kvs, traverseMap F P m [] = .ok kvs ∧ kvs.length = leavesMap m
  | [], P, _ => ⟨[], by rw [traverseMap], rfl⟩
  | (k, v) :: rest, P, h => by
    rw [hierarchicalMap, Bool.and_eq_true] at h
    obtain ⟨a, ha, hla⟩ := traverse_leaves F v (P ++ k) h.1
    obtain ⟨b, hb, hlb⟩ := traverseMap_leaves F rest P h.2
    refine ⟨a ++ b, ?_, ?_⟩
    · rw [traverseMap, ha]
      simp only []
      rw [traverseMap_acc, hb]
      simp
    · rw [leavesMap, List.length_append, hla, hlb]
end

/-! ## `strconv.Itoa` produces decimal numerals -/

theorem digitChar_facts (d : Nat) (h : d < 10) :
    (Nat.digitChar d).isDigit = true ∧ (Nat.digitChar d).toNat - 48 = d ∧
      (Nat.digitChar d = '0' → d = 0) := by
  interval_cases d <;> decide

theorem digitsVal_snoc (L : List Char) (c : Char) :
    digitsVal (L ++ [c]) = 10 * digitsVal L + (c.toNat - 48) := by
  simp [digitsVal, List.foldl_append]

theorem toDigitsCore_spec :
    ∀ (fuel n : Nat) (ds : List Char), n < fuel →
      ∃ L, Nat.toDigitsCore 10 fuel n ds = L ++ ds ∧ L ≠ [] ∧
        (∀ c ∈ L, c.isDigit = true) ∧ digitsVal L = n ∧
        (L.head? = some '0' → n = 0) ∧ (n = 0 → L = ['0']) := by
  intro fuel
  induction fuel with
  | zero => intro n ds h; omega
  | succ fuel ih =>
    intro n ds h
    have hd := digitChar_facts (n % 10) (Nat.mod_lt _ (by decide))
    rw [Nat.toDigitsCore]
    by_cases h0 : n / 10 = 0
    · have hn : n < 10 := by omega
      have hm : n % 10 = n := Nat.mod_eq_of_lt hn
      simp only [h0, if_true]
      refine ⟨[Nat.digitChar (n % 10)], rfl, by simp, ?_, ?_, ?_, ?_⟩
      · intro c hc
        simp only [List.mem_singleton] at hc
        rw [hc]; exact hd.1
      · have h2 := hd.2.1
        simp only [digitsVal, List.foldl_cons, List.foldl_nil, h2]
        omega
      · intro hh
        simp only [List.head?_cons, Option.some.injEq] at hh
        have := hd.2.2 hh
        omega
      · intro hz
        subst hz
        rfl
    · simp only [h0, if_false]
      have hlt : n / 10 < fuel := by omega
      obtain ⟨L, hL, hne, hdig, hval, hhead, _⟩ := ih (n / 10) (Nat.digitChar (n % 10) :: ds) hlt
      refine ⟨L ++ [Nat.digitChar (n % 10)], ?_, by simp, ?_, ?_, ?_, ?_⟩
      · rw [hL]; simp
      · intro c hc
        rw [List.mem_append] at hc
        rcases hc with hc | hc
        · exact hdig c hc
        · simp only [List.mem_singleton] at hc
          rw [hc]; exact hd.1
      · rw [digitsVal_snoc, hval, hd.2.1]
        omega
      · intro hh
        exfalso
        apply h0
        apply hhead
        cases L with
        | nil => exact absurd rfl hne
        | cons a L => simpa using hh
      · intro hz
        omega

theorem repr_isDecimalNat (n : Nat) : isDecimalNat (Nat.repr n).data n = true := by
  obtain ⟨L, hL, hne, hdig, hval, hhead, hzero⟩ := toDigitsCore_spec (n + 1) n [] (Nat.lt_succ_self n)
  have hdata : (Nat.repr n).data = L := by
    simp [Nat.repr, Nat.toDigits, hL, List.asString]
  rw [hdata]
  simp only [isDecimalNat, Bool.and_eq_true, Bool.or_eq_true, Bool.not_eq_true', bne_iff_ne, ne_eq,
    beq_iff_eq, List.all_eq_true, List.isEmpty_eq_false]
  refine ⟨⟨⟨?_, hdig⟩, hval⟩, ?_⟩
  · cases L with
    | nil => exact absurd rfl hne
    | cons a L => simp
  · by_cases hh : L.head? = some '0'
    · right; exact hzero (hhead hh)
    · left; exact hh

theorem Itoa_isDecimal (i : Int) : isDecimal (Itoa i) i = true := by
  cases i with
  | ofNat n => exact repr_isDecimalNat n
  | negSucc n =>
    have h := repr_isDecimalNat (n + 1)
    simp only [isDecimal, Itoa]
    have : ("-" ++ Nat.repr (n + 1)).data = '-' :: (Nat.repr (n + 1)).data := by
      simp [String.data_append]
    rw [this]
    exact h

theorem toInt_of_range (n : Int) (h1 : -2 ^ 63 ≤ n) (h2 : n < 2 ^ 63) : toInt n = n := by
  simp only [toInt, intSize]
  norm_num at h1 h2 ⊢
  omega

/-- C4. Scalar leaves: `traverse` of a scalar is exactly one entry whose key is the
path and whose value is the serialization of the scalar: the decimal numeral of an
`int` or of an `int64` (no leading zeros, `-` only when negative; `-7` gives `-7`),
`true` or `false` for a boolean, a string as it is, and the empty string for null. -/
theorem traverse_scalar (F : Nat → String) (p : String) :
    (∀ n : Int, traverse F p (.int n) = .ok [⟨p, Itoa n⟩]) ∧
    (∀ n : Int, -2 ^ 63 ≤ n → n < 2 ^ 63 → traverse F p (.int64 n) = .ok [⟨p, Itoa n⟩]) ∧
    (∀ n : Int, isDecimal (Itoa n) n = true) ∧
    traverse F p (.int (-7)) = .ok [⟨p, "-7"⟩] ∧
    traverse F p (.int64 (-7)) = .ok [⟨p, "-7"⟩] ∧
    traverse F p (.bool true) = .ok [⟨p, "true"⟩] ∧
    traverse F p (.bool false) = .ok [⟨p, "false"⟩] ∧
    (∀ s : String, traverse F p (.str s) = .ok [⟨p, s⟩]) ∧
    traverse F p .null = .ok [⟨p, ""⟩] := by
  refine ⟨fun n => by rw [traverse], ?_, Itoa_isDecimal, rfl, rfl, rfl, rfl,
    fun s => by rw [traverse], by rw [traverse]⟩
  intro n h1 h2
  rw [traverse, toInt_of_range n h1 h2]

theorem traverse_scalar_witness :
    traverse (fun _ => "") "Service/Port" (.int64 48080) = .ok [⟨"Service/Port", "48080"⟩] :=
  (traverse_scalar (fun _ => "") "Service/Port").2.1 48080 (by decide) (by decide)

/-- C5. Totality fails: a value whose dynamic type is none of those listed in the type
switch, such as the `time.Time` of a TOML date-time, reaches the `default` case, where
the assertion `j.(string)` panics; the panic of a nested value aborts the whole call. -/
theorem traverse_panics_on_other_type (F : Nat → String) :
    traverse F "" (.map [("Created", .other "time.Time")]) = .panic ∧
    traverse F "Created" (.other "time.Time") = .panic :=
  ⟨rfl, rfl⟩

/-! ## Keys returned by `traverse` -/

theorem traverseSeq_cons_ok (F : Nat → String) (P : String) (sk : Nat) (v : Value)
    (rest : List Value) (kvs : List KV)
    (h : traverseSeq F P sk (v :: rest) [] = .ok kvs) :
    ∃ a b, traverse F (P ++ Itoa (Int.ofNat sk)) v = .ok a ∧
      traverseSeq F P (sk + 1) rest [] = .ok b ∧ kvs = a ++ b := by
  rw [traverseSeq] at h
  cases ha : traverse F (P ++ Itoa (Int.ofNat sk)) v with
  | ok a =>
    rw [ha] at h
    simp only [] at h
    rw [traverseSeq_acc] at h
    cases hb : traverseSeq F P (sk + 1) rest [] with
    | ok b =>
      rw [hb] at h
      simp only [List.nil_append, Result.ok.injEq] at h
      exact ⟨a, b, rfl, rfl, h.symm⟩
    | err e => rw [hb] at h; simp at h
    | panic => rw [hb] at h; simp at h
  | err e => rw [ha] at h; simp at h
  | panic => rw [ha] at h; simp at h

theorem traverseMap_cons_ok (F : Nat → String) (P : String) (k : String) (v : Value)
    (rest : List (String × Value)) (kvs : List KV)
    (h : traverseMap F P ((k, v) :: rest) [] = .ok kvs) :
    ∃ a b, traverse F (P ++ k) v = .ok a ∧
      traverseMap F P rest [] = .ok b ∧ kvs = a ++ b := by
  rw [traverseMap] at h
  cases ha : traverse F (P ++ k) v with
  | ok a =>
    rw [ha] at h
    simp only [] at h
    rw [traverseMap_acc] at h
    cases hb : traverseMap F P rest [] with
    | ok b =>
      rw [hb] at h
      simp only [List.nil_append, Result.ok.injEq] at h
      exact ⟨a, b, rfl, rfl, h.symm⟩
    | err e => rw [hb] at h; simp at h
    | panic => rw [hb] at h; simp at h
  | err e => rw [ha] at h; simp at h
  | panic => rw [ha] at h; simp at h

theorem data_ne_nil_of_ne_empty (p : String) (h : p ≠ "") : p.data ≠ [] := by
  intro hd
  apply h
  apply String.ext
  simpa using hd

theorem under_append_seg (P seg k : List Char) (h : Under (P ++ seg) k) :
    ∃ r, k = P ++ r := by
  rcases h with h | ⟨r, h⟩
  · exact ⟨seg, h⟩
  · exact ⟨seg ++ '/' :: r, by rw [h, List.append_assoc]⟩

theorem leaf_under (p : String) (val : String) (kvs : List KV)
    (h : Result.ok [KV.mk p val] = Result.ok kvs) : ∀ e ∈ kvs, Under p.data e.Key.data := by
  cases h
  intro e he
  simp only [List.mem_singleton] at he
  left
  rw [he]

mutual
theorem traverse_under (F : Nat → String) :
    ∀ (v : Value) (p : String) (kvs : List KV), p.data ≠ [] → traverse F p v = .ok kvs →
      ∀ e ∈ kvs, Under p.data e.Key.data
  | .seq xs, p, kvs, hp, h => by
    have hp2 : p ≠ "" := by
      intro hh; apply hp; rw [hh]
    rw [traverse, if_pos hp2] at h
    intro e he
    obtain ⟨r, hr⟩ := traverseSeq_pre F xs (p ++ "/") 0 kvs (by simp [String.data_append]) h e he
    right
    exact ⟨r, by rw [hr, String.data_append]; simp⟩
  | .map m, p, kvs, hp, h => by
    have hp2 : p ≠ "" := by
      intro hh; apply hp; rw [hh]
    rw [traverse, if_pos hp2] at h
    intro e he
    obtain ⟨r, hr⟩ := traverseMap_pre F m (p ++ "/") kvs (by simp [String.data_append]) h e he
    right
    exact ⟨r, by rw [hr, String.data_append]; simp⟩
  | .int n, p, kvs, _, h => by rw [traverse] at h; exact leaf_under p _ kvs h
  | .int64 n, p, kvs, _, h => by rw [traverse] at h; exact leaf_under p _ kvs h
  | .float64 f, p, kvs, _, h => by rw [traverse] at h; exact leaf_under p _ kvs h
  | .bool b, p, kvs, _, h => by rw [traverse] at h; exact leaf_under p _ kvs h
  | .null, p, kvs, _, h => by rw [traverse] at h; exact leaf_under p _ kvs h
  | .str s, p, kvs, _, h => by rw [traverse] at h; exact leaf_under p _ kvs h
  | .other t, p, kvs, _, h => by rw [traverse] at h; cases h
theorem traverseSeq_pre (F : Nat → String) :
    ∀ (xs : List Value) (P : String) (sk : Nat) (kvs : List KV), P.data ≠ [] →
      traverseSeq F P sk xs [] = .ok kvs →
      ∀ e ∈ kvs, ∃ r, e.Key.data = P.data ++ r
  | [], P, sk, kvs, _, h => by
    rw [traverseSeq] at h; cases h; intro e he; cases he
  | v :: rest, P, sk, kvs, hP, h => by
    obtain ⟨a, b, ha, hb, hab⟩ := traverseSeq_cons_ok F P sk v rest kvs h
    intro e he
    rw [hab, List.mem_append] at he
    rcases he with he | he
    · have hu := traverse_under F v (P ++ Itoa (Int.ofNat sk)) a
        (by simp [String.data_append, hP]) ha e he
      rw [String.data_append] at hu
      exact under_append_seg _ _ _ hu
    · exact traverseSeq_pre F rest P (sk + 1) b hP hb e he
theorem traverseMap_pre (F : Nat → String) :
    ∀ (m : List (String × Value)) (P : String) (kvs : List KV), P.data ≠ [] →
      traverseMap F P m [] = .ok kvs →
      ∀ e ∈ kvs, ∃ r, e.Key.data = P.data ++ r
  | [], P, kvs, _, h => by
    rw [traverseMap] at h; cases h; intro e he; cases he
  | (k, v) :: rest, P, kvs, hP, h => by
    obtain ⟨a, b, ha, hb, hab⟩ := traverseMap_cons_ok F P k v rest kvs h
    intro e he
    rw [hab, List.mem_append] at he
    rcases he with he | he
    · have hu := traverse_under F v (P ++ k) a
        (by simp [String.data_append, hP]) ha e he
      rw [String.data_append] at hu
      exact under_append_seg _ _ _ hu
    · exact traverseMap_pre F rest P b hP hb e he
end

theorem segment_tail_eq :
    ∀ (s1 s2 r1 r2 : List Char), '/' ∉ s1 → '/' ∉ s2 →
      (r1 = [] ∨ ∃ t, r1 = '/' :: t) → (r2 = [] ∨ ∃ t, r2 = '/' :: t) →
      s1 ++ r1 = s2 ++ r2 → s1 = s2 := by
  intro s1
  induction s1 with
  | nil =>
    intro s2 r1 r2 _ h2 hr1 _ h
    cases s2 with
    | nil => rfl
    | cons c s2 =>
      exfalso
      simp only [List.nil_append, List.cons_append] at h
      rcases hr1 with hr1 | ⟨t, hr1⟩
      · rw [hr1] at h; cases h
      · rw [hr1] at h
        injection h with hc _
        apply h2
        rw [← hc]
        exact List.mem_cons_self _ _
  | cons c s1 ih =>
    intro s2 r1 r2 h1 h2 hr1 hr2 h
    cases s2 with
    | nil =>
      exfalso
      simp only [List.nil_append, List.cons_append] at h
      rcases hr2 with hr2 | ⟨t, hr2⟩
      · rw [hr2] at h; cases h
      · rw [hr2] at h
        injection h with hc _
        apply h1
        rw [hc]
        exact List.mem_cons_self _ _
    | cons c2 s2 =>
      simp only [List.cons_append] at h
      injection h with hc ht
      rw [hc]
      congr 1
      exact ih s2 r1 r2 (fun hm => h1 (List.mem_cons_of_mem _ hm))
        (fun hm => h2 (List.mem_cons_of_mem _ hm)) hr1 hr2 ht

theorem under_tail (q k : List Char) (h : Under q k) :
    ∃ r, k = q ++ r ∧ (r = [] ∨ ∃ t, r = '/' :: t) := by
  rcases h with h | ⟨t, h⟩
  · exact ⟨[], by rw [h, List.append_nil], Or.inl rfl⟩
  · exact ⟨'/' :: t, h, Or.inr ⟨t, rfl⟩⟩

theorem segment_eq (P s1 s2 k : List Char) (h1 : '/' ∉ s1) (h2 : '/' ∉ s2)
    (u1 : Under (P ++ s1) k) (u2 : Under (P ++ s2) k) : s1 = s2 := by
  obtain ⟨r1, e1, hr1⟩ := under_tail _ _ u1
  obtain ⟨r2, e2, hr2⟩ := under_tail _ _ u2
  rw [e1, List.append_assoc, List.append_assoc] at e2
  exact segment_tail_eq s1 s2 r1 r2 h1 h2 hr1 hr2 (List.append_cancel_left e2)

theorem repr_data_facts (i : Nat) :
    (Nat.repr i).data ≠ [] ∧ '/' ∉ (Nat.repr i).data ∧ digitsVal (Nat.repr i).data = i := by
  have h := repr_isDecimalNat i
  simp only [isDecimalNat, Bool.and_eq_true, Bool.or_eq_true, Bool.not_eq_true', bne_iff_ne,
    ne_eq, beq_iff_eq, List.all_eq_true, List.isEmpty_eq_false] at h
  refine ⟨?_, ?_, h.1.2⟩
  · intro hn
    rw [hn] at h
    simp at h
  · intro hm
    have := h.1.1.2 _ hm
    revert this
    decide

theorem repr_injective (a b : Nat) (h : Nat.repr a = Nat.repr b) : a = b := by
  have ha := (repr_data_facts a).2.2
  have hb := (repr_data_facts b).2.2
  rw [h] at ha
  omega

theorem plainKey_facts (k : String) (h : plainKey k = true) : k.data ≠ [] ∧ '/' ∉ k.data := by
  simp only [plainKey, Bool.and_eq_true, Bool.not_eq_true', List.isEmpty_eq_false] at h
  refine ⟨?_, ?_⟩
  · intro hn
    rw [hn] at h
    simp at h
  · intro hm
    have h2 := h.2
    simp [hm] at h2

theorem keys_nodup_append (a b : List KV) (ha : (a.map KV.Key).Nodup) (hb : (b.map KV.Key).Nodup)
    (hd : ∀ e ∈ a, ∀ e2 ∈ b, e.Key.data = e2.Key.data → False) :
    ((a ++ b).map KV.Key).Nodup := by
  rw [List.map_append, List.nodup_append]
  refine ⟨ha, hb, ?_⟩
  intro k hk1 hk2
  rw [List.mem_map] at hk1 hk2
  obtain ⟨e, he, hek⟩ := hk1
  obtain ⟨e2, he2, hek2⟩ := hk2
  exact hd e he e2 he2 (by rw [hek, hek2])

theorem leaf_nodup (p : String) (val : String) (kvs : List KV)
    (h : Result.ok [KV.mk p val] = Result.ok kvs) : (kvs.map KV.Key).Nodup := by
  cases h
  simp

mutual
theorem traverse_nodup (F : Nat → String) :
    ∀ (v : Value) (p : String) (kvs : List KV), v.uniqueKeys = true → v.plainKeys = true →
      traverse F p v = .ok kvs → (kvs.map KV.Key).Nodup
  | .seq xs, p, kvs, hu, hpl, h => by
    rw [traverse] at h
    rw [Value.uniqueKeys] at hu
    rw [Value.plainKeys] at hpl
    exact (traverseSeq_nodup F xs _ 0 kvs hu hpl h).1
  | .map m, p, kvs, hu, hpl, h => by
    rw [traverse] at h
    rw [Value.uniqueKeys, Bool.and_eq_true, decide_eq_true_eq] at hu
    rw [Value.plainKeys] at hpl
    exact (traverseMap_nodup F m _ kvs hu.1 hu.2 hpl h).1
  | .int n, p, kvs, _, _, h => by rw [traverse] at h; exact leaf_nodup p _ kvs h
  | .int64 n, p, kvs, _, _, h => by rw [traverse] at h; exact leaf_nodup p _ kvs h
  | .float64 f, p, kvs, _, _, h => by rw [traverse] at h; exact leaf_nodup p _ kvs h
  | .bool b, p, kvs, _, _, h => by rw [traverse] at h; exact leaf_nodup p _ kvs h
  | .null, p, kvs, _, _, h => by rw [traverse] at h; exact leaf_nodup p _ kvs h
  | .str s, p, kvs, _, _, h => by rw [traverse] at h; exact leaf_nodup p _ kvs h
  | .other t, p, kvs, _, _, h => by rw [traverse] at h; cases h
theorem traverseSeq_nodup (F : Nat → String) :
    ∀ (xs : List Value) (P : String) (sk : Nat) (kvs : List KV),
      uniqueKeysSeq xs = true → plainKeysSeq xs = true →
      traverseSeq F P sk xs [] = .ok kvs →
      (kvs.map KV.Key).Nodup ∧
        ∀ e ∈ kvs, ∃ i, sk ≤ i ∧ Under (P.data ++ (Nat.repr i).data) e.Key.data
  | [], P, sk, kvs, _, _, h => by
    rw [traverseSeq] at h; cases h
    exact ⟨by simp, fun e he => by cases he⟩
  | v :: rest, P, sk, kvs, hu, hpl, h => by
    obtain ⟨a, b, ha, hb, hab⟩ := traverseSeq_cons_ok F P sk v rest kvs h
    rw [uniqueKeysSeq, Bool.and_eq_true] at hu
    rw [plainKeysSeq, Bool.and_eq_true] at hpl
    have hna := traverse_nodup F v _ a hu.1 hpl.1 ha
    obtain ⟨hnb, hub⟩ := traverseSeq_nodup F rest P (sk + 1) b hu.2 hpl.2 hb
    have hua : ∀ e ∈ a, Under (P.data ++ (Nat.repr sk).data) e.Key.data := by
      intro e he
      have hu := traverse_under F v (P ++ Itoa (Int.ofNat sk)) a
        (by
          rw [String.data_append]
          have := (repr_data_facts sk).1
          simp [Itoa, this]) ha e he
      rw [String.data_append] at hu
      exact hu
    rw [hab]
    refine ⟨keys_nodup_append a b hna hnb ?_, ?_⟩
    · intro e he e2 he2 heq
      obtain ⟨i, hi, hui⟩ := hub e2 he2
      have h1 := hua e he
      rw [heq] at h1
      have hs := segment_eq P.data _ _ _ (repr_data_facts sk).2.1 (repr_data_facts i).2.1 h1 hui
      have := repr_injective sk i (String.ext hs)
      omega
    · intro e he
      rw [List.mem_append] at he
      rcases he with he | he
      · exact ⟨sk, Nat.le_refl _, hua e he⟩
      · obtain ⟨i, hi, hui⟩ := hub e he
        exact ⟨i, by omega, hui⟩
theorem traverseMap_nodup (F : Nat → String) :
    ∀ (m : List (String × Value)) (P : String) (kvs : List KV),
      (m.map Prod.fst).Nodup → uniqueKeysMap m = true → plainKeysMap m = true →
      traverseMap F P m [] = .ok kvs →
      (kvs.map KV.Key).Nodup ∧
        ∀ e ∈ kvs, ∃ k ∈ m.map Prod.fst, plainKey k = true ∧ Under (P.data ++ k.data) e.Key.data
  | [], P, kvs, _, _, _, h => by
    rw [traverseMap] at h; cases h
    exact ⟨by simp, fun e he => by cases he⟩
  | (k, v) :: rest, P, kvs, hk, hu, hpl, h => by
    obtain ⟨a, b, ha, hb, hab⟩ := traverseMap_cons_ok F P k v rest kvs h
    rw [uniqueKeysMap, Bool.and_eq_true] at hu
    rw [plainKeysMap, Bool.and_eq_true, Bool.and_eq_true] at hpl
    rw [List.map_cons, List.nodup_cons] at hk
    have hkf := plainKey_facts k hpl.1.1
    have hna := traverse_nodup F v _ a hu.1 hpl.1.2 ha
    obtain ⟨hnb, hub⟩ := traverseMap_nodup F rest P b hk.2 hu.2 hpl.2 hb
    have hua : ∀ e ∈ a, Under (P.data ++ k.data) e.Key.data := by
      intro e he
      have hu := traverse_under F v (P ++ k) a
        (by
          rw [String.data_append]
          simp [hkf.1]) ha e he
      rw [String.data_append] at hu
      exact hu
    rw [hab]
    refine ⟨keys_nodup_append a b hna hnb ?_, ?_⟩
    · intro e he e2 he2 heq
      obtain ⟨k2, hk2, hpk2, huk2⟩ := hub e2 he2
      have h1 := hua e he
      rw [heq] at h1
      have hs := segment_eq P.data _ _ _ hkf.2 (plainKey_facts k2 hpk2).2 h1 huk2
      have : k = k2 := String.ext hs
      apply hk.1
      rw [this]
      exact hk2
    · intro e he
      rw [List.mem_append] at he
      rcases he with he | he
      · exact ⟨k, by simp, hpl.1.1, hua e he⟩
      · obtain ⟨k2, hk2, hpk2, huk2⟩ := hub e he
        exact ⟨k2, by simp only [List.map_cons, List.mem_cons]; right; exact hk2, hpk2, huk2⟩
end

/-- C3 (as stated, refuted). Keys that are unique within each mapping do not make the
returned keys distinct: a key containing `/` collides with a nested path (both entries
get the key `a/b`), and so does an empty key at the top of an empty prefix. -/
theorem path_uniqueness_counterexample :
    (Value.map [("a/b", .int 1), ("a", .map [("b", .int 2)])]).uniqueKeys = true ∧
    traverse (fun _ => "") "" (.map [("a/b", .int 1), ("a", .map [("b", .int 2)])]) =
      .ok [⟨"a/b", "1"⟩, ⟨"a/b", "2"⟩] ∧
    (Value.map [("", .map [("a", .int 1)]), ("a", .int 2)]).uniqueKeys = true ∧
    traverse (fun _ => "") "" (.map [("", .map [("a", .int 1)]), ("a", .int 2)]) =
      .ok [⟨"a", "1"⟩, ⟨"a", "2"⟩] ∧
    ¬ (∀ (F : Nat → String) (p : String) (v : Value) (kvs : List KV), v.uniqueKeys = true →
        traverse F p v = .ok kvs → (kvs.map KV.Key).Nodup) := by
  refine ⟨by decide, by decide, by decide, by decide, ?_⟩
  intro h
  have h2 := h (fun _ => "") "" (.map [("a/b", .int 1), ("a", .map [("b", .int 2)])])
    [⟨"a/b", "1"⟩, ⟨"a/b", "2"⟩] (by decide) (by decide)
  revert h2
  decide

/-- C3 (amended). Path uniqueness: when the keys of each mapping are pairwise distinct
and no key is empty or contains `/`, the entries returned by one call of `traverse`
have pairwise distinct keys, whatever the path prefix. -/
theorem traverse_keys_nodup (F : Nat → String) (p : String) (v : Value) (kvs : List KV)
    (hu : v.uniqueKeys = true) (hp : v.plainKeys = true) (h : traverse F p v = .ok kvs) :
    (kvs.map KV.Key).Nodup :=
  traverse_nodup F v p kvs hu hp h

theorem traverse_keys_nodup_witness :
    traverse (fun _ => "") "cfg"
        (.map [("Service", .map [("Port", .int64 48080), ("Labels", .seq [.str "a", .str "b"])]),
               ("Debug", .bool false)]) =
      .ok [⟨"cfg/Service/Port", "48080"⟩, ⟨"cfg/Service/Labels/0", "a"⟩,
           ⟨"cfg/Service/Labels/1", "b"⟩, ⟨"cfg/Debug", "false"⟩] ∧
    (([⟨"cfg/Service/Port", "48080"⟩, ⟨"cfg/Service/Labels/0", "a"⟩,
       ⟨"cfg/Service/Labels/1", "b"⟩, ⟨"cfg/Debug", "false"⟩] : List KV).map KV.Key).Nodup :=
  ⟨by decide,
   traverse_keys_nodup (fun _ => "") "cfg"
    (.map [("Service", .map [("Port", .int64 48080), ("Labels", .seq [.str "a", .str "b"])]),
           ("Debug", .bool false)])
    _ (by decide) (by decide) (by decide)⟩

/-! ## Paths of empty sequences and mappings -/

theorem isEmpty_false_of_ne_nil {α : Type} (l : List α) (h : l.isEmpty = false) : l ≠ [] := by
  intro hl
  rw [hl] at h
  simp at h

mutual
theorem emptyPaths_under :
    ∀ (v : Value) (p : String), p.data ≠ [] → ∀ q ∈ emptyPaths p v, Under p.data q.data
  | .seq xs, p, hp, q, hq => by
    have hp2 : p ≠ "" := by
      intro hh; apply hp; rw [hh]
    rw [emptyPaths] at hq
    cases hx : xs.isEmpty with
    | true =>
      simp only [hx, if_true, List.mem_singleton] at hq
      left; rw [hq]
    | false =>
      simp only [hx, if_pos hp2] at hq
      obtain ⟨r, hr⟩ := emptyPathsSeq_pre xs (p ++ "/") 0 (by simp [String.data_append]) q hq
      right
      exact ⟨r, by rw [hr, String.data_append]; simp⟩
  | .map m, p, hp, q, hq => by
    have hp2 : p ≠ "" := by
      intro hh; apply hp; rw [hh]
    rw [emptyPaths] at hq
    cases hx : m.isEmpty with
    | true =>
      simp only [hx, if_true, List.mem_singleton] at hq
      left; rw [hq]
    | false =>
      simp only [hx, if_pos hp2] at hq
      obtain ⟨r, hr⟩ := emptyPathsMap_pre m (p ++ "/") (by simp [String.data_append]) q hq
      right
      exact ⟨r, by rw [hr, String.data_append]; simp⟩
  | .int n, p, _, q, hq => by rw [emptyPaths] at hq; cases hq
  | .int64 n, p, _, q, hq => by rw [emptyPaths] at hq; cases hq
  | .float64 f, p, _, q, hq => by rw [emptyPaths] at hq; cases hq
  | .bool b, p, _, q, hq => by rw [emptyPaths] at hq; cases hq
  | .null, p, _, q, hq => by rw [emptyPaths] at hq; cases hq
  | .str s, p, _, q, hq => by rw [emptyPaths] at hq; cases hq
  | .other t, p, _, q, hq => by rw [emptyPaths] at hq; cases hq
theorem emptyPathsSeq_pre :
    ∀ (xs : List Value) (P : String) (sk : Nat), P.data ≠ [] →
      ∀ q ∈ emptyPathsSeq P sk xs, ∃ r, q.data = P.data ++ r
  | [], P, sk, _, q, hq => by rw [emptyPathsSeq] at hq; cases hq
  | v :: rest, P, sk, hP, q, hq => by
    rw [emptyPathsSeq, List.mem_append] at hq
    rcases hq with hq | hq
    · have hu := emptyPaths_under v (P ++ Itoa (Int.ofNat sk))
        (by simp [String.data_append, hP]) q hq
      rw [String.data_append] at hu
      exact under_append_seg _ _ _ hu
    · exact emptyPathsSeq_pre rest P (sk + 1) hP q hq
theorem emptyPathsMap_pre :
    ∀ (m : List (String × Value)) (P : String), P.data ≠ [] →
      ∀ q ∈ emptyPathsMap P m, ∃ r, q.data = P.data ++ r
  | [], P, _, q, hq => by rw [emptyPathsMap] at hq; cases hq
  | (k, v) :: rest, P, hP, q, hq => by
    rw [emptyPathsMap, List.mem_append] at hq
    rcases hq with hq | hq
    · have hu := emptyPaths_under v (P ++ k) (by simp [String.data_append, hP]) q hq
      rw [String.data_append] at hu
      exact under_append_seg _ _ _ hu
    · exact emptyPathsMap_pre rest P hP q hq
end

theorem emptyPathsSeq_seg :
    ∀ (xs : List Value) (P : String) (sk : Nat),
      ∀ q ∈ emptyPathsSeq P sk xs,
        ∃ i, sk ≤ i ∧ Under (P.data ++ (Nat.repr i).data) q.data := by
  intro xs
  induction xs with
  | nil => intro P sk q hq; rw [emptyPathsSeq] at hq; cases hq
  | cons v rest ih =>
    intro P sk q hq
    rw [emptyPathsSeq, List.mem_append] at hq
    rcases hq with hq | hq
    · have hu := emptyPaths_under v (P ++ Itoa (Int.ofNat sk))
        (by
          rw [String.data_append]
          have := (repr_data_facts sk).1
          simp [Itoa, this]) q hq
      rw [String.data_append] at hu
      exact ⟨sk, Nat.le_refl _, hu⟩
    · obtain ⟨i, hi, hui⟩ := ih P (sk + 1) q hq
      exact ⟨i, by omega, hui⟩

theorem emptyPathsMap_seg :
    ∀ (m : List (String × Value)) (P : String), plainKeysMap m = true →
      ∀ q ∈ emptyPathsMap P m,
        ∃ k ∈ m.map Prod.fst, plainKey k = true ∧ Under (P.data ++ k.data) q.data := by
  intro m
  induction m with
  | nil => intro P _ q hq; rw [emptyPathsMap] at hq; cases hq
  | cons kv rest ih =>
    obtain ⟨k, v⟩ := kv
    intro P hpl q hq
    rw [plainKeysMap, Bool.and_eq_true, Bool.and_eq_true] at hpl
    rw [emptyPathsMap, List.mem_append] at hq
    rcases hq with hq | hq
    · have hkf := plainKey_facts k hpl.1.1
      have hu := emptyPaths_under v (P ++ k)
        (by
          rw [String.data_append]
          simp [hkf.1]) q hq
      rw [String.data_append] at hu
      exact ⟨k, by simp, hpl.1.1, hu⟩
    · obtain ⟨k2, hk2, hpk2, hu2⟩ := ih P hpl.2 q hq
      exact ⟨k2, by simp only [List.map_cons, List.mem_cons]; right; exact hk2, hpk2, hu2⟩

theorem child_keys_under (F : Nat → String) (v : Value) (P seg : String) (a : List KV)
    (hseg : seg.data ≠ []) (ha : traverse F (P ++ seg) v = .ok a) :
    ∀ e ∈ a, Under (P.data ++ seg.data) e.Key.data := by
  intro e he
  have hu := traverse_under F v (P ++ seg) a
    (by
      rw [String.data_append]
      simp [hseg]) ha e he
  rw [String.data_append] at hu
  exact hu

theorem child_empty_under (v : Value) (P seg : String) (hseg : seg.data ≠ []) :
    ∀ q ∈ emptyPaths (P ++ seg) v, Under (P.data ++ seg.data) q.data := by
  intro q hq
  have hu := emptyPaths_under v (P ++ seg)
    (by
      rw [String.data_append]
      simp [hseg]) q hq
  rw [String.data_append] at hu
  exact hu

mutual
theorem traverse_empty_disjoint (F : Nat → String) :
    ∀ (v : Value) (p : String) (kvs : List KV), v.uniqueKeys = true → v.plainKeys = true →
      traverse F p v = .ok kvs → ∀ q ∈ emptyPaths p v, ∀ e ∈ kvs, q.data ≠ e.Key.data
  | .seq xs, p, kvs, hu, hpl, h, q, hq, e, he => by
    rw [traverse] at h
    rw [Value.uniqueKeys] at hu
    rw [Value.plainKeys] at hpl
    rw [emptyPaths] at hq
    cases hx : xs.isEmpty with
    | true =>
      have hnil : xs = [] := List.isEmpty_iff.mp hx
      subst hnil
      rw [traverseSeq] at h
      cases h
      cases he
    | false =>
      simp only [hx] at hq
      exact traverseSeq_empty_disjoint F xs _ 0 kvs hu hpl h q hq e he
  | .map m, p, kvs, hu, hpl, h, q, hq, e, he => by
    rw [traverse] at h
    rw [Value.uniqueKeys, Bool.and_eq_true, decide_eq_true_eq] at hu
    rw [Value.plainKeys] at hpl
    rw [emptyPaths] at hq
    cases hx : m.isEmpty with
    | true =>
      have hnil : m = [] := List.isEmpty_iff.mp hx
      subst hnil
      rw [traverseMap] at h
      cases h
      cases he
    | false =>
      simp only [hx] at hq
      exact traverseMap_empty_disjoint F m _ kvs hu.1 hu.2 hpl h q hq e he
  | .int n, p, kvs, _, _, _, q, hq, _, _ => by rw [emptyPaths] at hq; cases hq
  | .int64 n, p, kvs, _, _, _, q, hq, _, _ => by rw [emptyPaths] at hq; cases hq
  | .float64 f, p, kvs, _, _, _, q, hq, _, _ => by rw [emptyPaths] at hq; cases hq
  | .bool b, p, kvs, _, _, _, q, hq, _, _ => by rw [emptyPaths] at hq; cases hq
  | .null, p, kvs, _, _, _, q, hq, _, _ => by rw [emptyPaths] at hq; cases hq
  | .str s, p, kvs, _, _, _, q, hq, _, _ => by rw [emptyPaths] at hq; cases hq
  | .other t, p, kvs, _, _, _, q, hq, _, _ => by rw [emptyPaths] at hq; cases hq
theorem traverseSeq_empty_disjoint (F : Nat → String) :
    ∀ (xs : List Value) (P : String) (sk : Nat) (kvs : List KV),
      uniqueKeysSeq xs = true → plainKeysSeq xs = true →
      traverseSeq F P sk xs [] = .ok kvs →
      ∀ q ∈ emptyPathsSeq P sk xs, ∀ e ∈ kvs, q.data ≠ e.Key.data
  | [], P, sk, kvs, _, _, _, q, hq, _, _ => by rw [emptyPathsSeq] at hq; cases hq
  | v :: rest, P, sk, kvs, hu, hpl, h, q, hq, e, he => by
    obtain ⟨a, b, ha, hb, hab⟩ := traverseSeq_cons_ok F P sk v rest kvs h
    rw [uniqueKeysSeq, Bool.and_eq_true] at hu
    rw [plainKeysSeq, Bool.and_eq_true] at hpl
    have hrepr : (Itoa (Int.ofNat sk)).data = (Nat.repr sk).data := rfl
    have hne : (Itoa (Int.ofNat sk)).data ≠ [] := by
      rw [hrepr]; exact (repr_data_facts sk).1
    have hua := child_keys_under F v P (Itoa (Int.ofNat sk)) a hne ha
    have hqa := child_empty_under v P (Itoa (Int.ofNat sk)) hne
    have hub := (traverseSeq_nodup F rest P (sk + 1) b hu.2 hpl.2 hb).2
    have hqb := emptyPathsSeq_seg rest P (sk + 1)
    rw [hab, List.mem_append] at he
    rw [emptyPathsSeq, List.mem_append] at hq
    rcases hq with hq | hq
    · rcases he with he | he
      · exact traverse_empty_disjoint F v _ a hu.1 hpl.1 ha q hq e he
      · intro heq
        obtain ⟨i, hi, hui⟩ := hub e he
        have h1 := hqa q hq
        rw [heq, hrepr] at h1
        have hs := segment_eq P.data _ _ _ (repr_data_facts sk).2.1 (repr_data_facts i).2.1
          h1 hui
        have := repr_injective sk i (String.ext hs)
        omega
    · rcases he with he | he
      · intro heq
        obtain ⟨i, hi, hui⟩ := hqb q hq
        have h1 := hua e he
        rw [← heq, hrepr] at h1
        have hs := segment_eq P.data _ _ _ (repr_data_facts sk).2.1 (repr_data_facts i).2.1
          h1 hui
        have := repr_injective sk i (String.ext hs)
        omega
      · exact traverseSeq_empty_disjoint F rest P (sk + 1) b hu.2 hpl.2 hb q hq e he
theorem traverseMap_empty_disjoint (F : Nat → String) :
    ∀ (m : List (String × Value)) (P : String) (kvs : List KV),
      (m.map Prod.fst).Nodup → uniqueKeysMap m = true → plainKeysMap m = true →
      traverseMap F P m [] = .ok kvs →
      ∀ q ∈ emptyPathsMap P m, ∀ e ∈ kvs, q.data ≠ e.Key.data
  | [], P, kvs, _, _, _, _, q, hq, _, _ => by rw [emptyPathsMap] at hq; cases hq
  | (k, v) :: rest, P, kvs, hk, hu, hpl, h, q, hq, e, he => by
    obtain ⟨a, b, ha, hb, hab⟩ := traverseMap_cons_ok F P k v rest kvs h
    rw [uniqueKeysMap, Bool.and_eq_true] at hu
    rw [plainKeysMap, Bool.and_eq_true, Bool.and_eq_true] at hpl
    rw [List.map_cons, List.nodup_cons] at hk
    have hkf := plainKey_facts k hpl.1.1
    have hua := child_keys_under F v P k a hkf.1 ha
    have hqa := child_empty_under v P k hkf.1
    have hub := (traverseMap_nodup F rest P b hk.2 hu.2 hpl.2 hb).2
    have hqb := emptyPathsMap_seg rest P hpl.2
    rw [hab, List.mem_append] at he
    rw [emptyPathsMap, List.mem_append] at hq
    rcases hq with hq | hq
    · rcases he with he | he
      · exact traverse_empty_disjoint F v _ a hu.1 hpl.1.2 ha q hq e he
      · intro heq
        obtain ⟨k2, hk2, hpk2, huk2⟩ := hub e he
        have h1 := hqa q hq
        rw [heq] at h1
        have hs := segment_eq P.data _ _ _ hkf.2 (plainKey_facts k2 hpk2).2 h1 huk2
        have hkk : k = k2 := String.ext hs
        apply hk.1
        rw [hkk]
        exact hk2
    · rcases he with he | he
      · intro heq
        obtain ⟨k2, hk2, hpk2, huk2⟩ := hqb q hq
        have h1 := hua e he
        rw [← heq] at h1
        have hs := segment_eq P.data _ _ _ hkf.2 (plainKey_facts k2 hpk2).2 h1 huk2
        have hkk : k = k2 := String.ext hs
        apply hk.1
        rw [hkk]
        exact hk2
      · exact traverseMap_empty_disjoint F rest P b hk.2 hu.2 hpl.2 hb q hq e he
end

/-- C2 (as stated, refuted). The path of an empty sequence can appear as a key: in the
Hierarchical Value `{"x": {"y": []}, "x/y": 1}`, whose keys are unique within each
mapping, the empty sequence has the path `x/y`, and `traverse` returns one entry, with
the key `x/y`; under the empty prefix the same happens with an empty key, in
`{"": {"a": []}, "a": 1}`. -/
theorem empty_path_counterexample :
    (Value.map [("x", .map [("y", .seq [])]), ("x/y", .int 1)]).hierarchical = true ∧
    (Value.map [("x", .map [("y", .seq [])]), ("x/y", .int 1)]).uniqueKeys = true ∧
    emptyPaths "" (.map [("x", .map [("y", .seq [])]), ("x/y", .int 1)]) = ["x/y"] ∧
    traverse (fun _ => "") "" (.map [("x", .map [("y", .seq [])]), ("x/y", .int 1)]) =
      .ok [⟨"x/y", "1"⟩] ∧
    (Value.map [("", .map [("a", .seq [])]), ("a", .int 1)]).uniqueKeys = true ∧
    emptyPaths "" (.map [("", .map [("a", .seq [])]), ("a", .int 1)]) = ["a"] ∧
    traverse (fun _ => "") "" (.map [("", .map [("a", .seq [])]), ("a", .int 1)]) =
      .ok [⟨"a", "1"⟩] ∧
    ¬ (∀ (F : Nat → String) (p : String) (v : Value) (kvs : List KV),
        v.hierarchical = true → v.uniqueKeys = true → traverse F p v = .ok kvs →
        ∀ q ∈ emptyPaths p v, q ∉ kvs.map KV.Key) := by
  refine ⟨by decide, by decide, by decide, by decide, by decide, by decide, by decide, ?_⟩
  intro h
  have h2 := h (fun _ => "") "" (.map [("x", .map [("y", .seq [])]), ("x/y", .int 1)])
    [⟨"x/y", "1"⟩] (by decide) (by decide) (by decide) "x/y" (by decide)
  revert h2
  decide

/-- C2 (amended). Leaf-count invariant: for a Hierarchical Value `traverse` returns as
many entries as the value has scalar and null leaves, an empty sequence or mapping
counting for none; and when the keys of each mapping are pairwise distinct and no key
is empty or contains `/`, the path of an empty sequence or mapping anywhere in the
value is not the key of any entry returned. -/
theorem traverse_leaf_count_empty_paths (F : Nat → String) (p : String) (v : Value) :
    (v.hierarchical = true → ∃ kvs, traverse F p v = .ok kvs ∧ kvs.length = v.leaves) ∧
    (Value.seq []).leaves = 0 ∧ (Value.map []).leaves = 0 ∧
    traverse F p (.seq []) = .ok [] ∧ traverse F p (.map []) = .ok [] ∧
    (∀ kvs : List KV, v.uniqueKeys = true → v.plainKeys = true → traverse F p v = .ok kvs →
      ∀ q ∈ emptyPaths p v, q ∉ kvs.map KV.Key) := by
  refine ⟨traverse_leaves F v p, rfl, rfl, rfl, rfl, ?_⟩
  intro kvs hu hpl h q hq hmem
  rw [List.mem_map] at hmem
  obtain ⟨e, he, heq⟩ := hmem
  exact traverse_empty_disjoint F v p kvs hu hpl h q hq e he (by rw [heq])

theorem traverse_leaf_count_empty_paths_witness :
    (∃ kvs, traverse (fun _ => "1.5") "cfg"
        (.map [("a", .seq []), ("b", .seq [.int 1, .null, .map []]), ("c", .float64 0)]) =
          .ok kvs ∧ kvs.length = 3) ∧
    emptyPaths "cfg"
        (.map [("a", .seq []), ("b", .seq [.int 1, .null, .map []]), ("c", .float64 0)]) =
      ["cfg/a", "cfg/b/2"] ∧
    "cfg/b/2" ∉ ([⟨"cfg/b/0", "1"⟩, ⟨"cfg/b/1", ""⟩, ⟨"cfg/c", "1.5"⟩] : List KV).map KV.Key :=
  ⟨(traverse_leaf_count_empty_paths (fun _ => "1.5") "cfg"
      (.map [("a", .seq []), ("b", .seq [.int 1, .null, .map []]), ("c", .float64 0)])).1
      (by decide),
   by decide,
   (traverse_leaf_count_empty_paths (fun _ => "1.5") "cfg"
      (.map [("a", .seq []), ("b", .seq [.int 1, .null, .map []]), ("c", .float64 0)])).2.2.2.2.2
      [⟨"cfg/b/0", "1"⟩, ⟨"cfg/b/1", ""⟩, ⟨"cfg/c", "1.5"⟩]
      (by decide) (by decide) (by decide) "cfg/b/2" (by decide)⟩

/-! ## The PUT loop -/

theorem putLoop_spec (env : Env) :
    ∀ (ps : List KVPair) (t : Trace),
      ((putLoop env ps t).2 = none ∧
        (putLoop env ps t).1 = t ++ ps.map (fun p => (⟨.put p, none⟩ : Call))) ∨
      (∃ x done p rest, (putLoop env ps t).2 = some x ∧ ps = done ++ p :: rest ∧
        (putLoop env ps t).1 =
          t ++ (done.map (fun p => (⟨.put p, none⟩ : Call)) ++ [⟨.put p, some x⟩])) := by
  intro ps
  induction ps with
  | nil => intro t; left; simp [putLoop]
  | cons p rest ih =>
    intro t
    rw [putLoop, consulPut]
    cases hx : env.putErr t.length p with
    | some x =>
      right
      exact ⟨x, [], p, rest, rfl, rfl, by simp⟩
    | none =>
      simp only []
      rcases ih (t ++ [⟨.put p, none⟩]) with ⟨h1, h2⟩ | ⟨x, done, q, rest2, h1, h2, h3⟩
      · left
        exact ⟨h1, by rw [h2]; simp⟩
      · right
        refine ⟨x, p :: done, q, rest2, h1, by rw [h2]; rfl, ?_⟩
        rw [h3]
        simp

theorem putLoop_no_error (env : Env) (hput : ∀ n p, env.putErr n p = none) :
    ∀ (ps : List KVPair) (t : Trace),
      putLoop env ps t = (t ++ ps.map (fun p => (⟨.put p, none⟩ : Call)), none) := by
  intro ps
  induction ps with
  | nil => intro t; simp [putLoop]
  | cons p rest ih =>
    intro t
    rw [putLoop, consulPut, hput]
    simp only []
    rw [ih]
    simp

theorem putLoop_requests (env : Env) (ps : List KVPair) (t : Trace) :
    ∃ calls, (putLoop env ps t).1 = t ++ calls ∧
      calls.map Call.request <+: ps.map Request.put := by
  rcases putLoop_spec env ps t with ⟨_, h2⟩ | ⟨x, done, p, rest, _, h2, h3⟩
  · refine ⟨_, h2, ?_⟩
    simp only [List.map_map]
    exact ⟨[], by simp [Function.comp_def]⟩
  · refine ⟨_, h3, ?_⟩
    rw [h2]
    simp only [List.map_append, List.map_map, List.map_cons, List.map_nil]
    exact ⟨rest.map Request.put, by simp [Function.comp_def]⟩

/-! ## Paths of walked files -/

theorem splitRev_file :
    ∀ (g X acc : List Char), '/' ∉ g →
      splitRev (g ++ '/' :: X) acc = (('/' :: X).reverse, g.reverse ++ acc) := by
  intro g
  induction g with
  | nil => intro X acc _; simp [splitRev]
  | cons c g ih =>
    intro X acc h
    have hc : c ≠ '/' := fun hh => h (by rw [hh]; exact List.mem_cons_self _ _)
    have hg : '/' ∉ g := fun hh => h (List.mem_cons_of_mem _ hh)
    rw [List.cons_append, splitRev, if_neg hc, ih X (c :: acc) hg]
    simp

theorem Split_dir_file (dir file : String) (h : '/' ∉ file.data) :
    Split (dir ++ "/" ++ file) = (dir ++ "/", file) := by
  have hdata : (dir ++ "/" ++ file).data.reverse = file.data.reverse ++ '/' :: dir.data.reverse := by
    simp [String.data_append]
  have hrev : '/' ∉ file.data.reverse := by simpa using h
  simp only [Split, hdata, splitRev_file _ _ _ hrev]
  refine Prod.ext ?_ ?_
  · apply String.ext
    simp [String.data_append]
  · apply String.ext
    simp

theorem TrimPrefix_append (a b : String) : TrimPrefix (a ++ b) a = b := by
  have h : a.data.isPrefixOf (a ++ b).data = true := by
    rw [List.isPrefixOf_iff_prefix, String.data_append]
    exact List.prefix_append _ _
  simp only [TrimPrefix, h, if_true]
  apply String.ext
  simp [String.data_append]

theorem append_empty (s : String) : s ++ "" = s := by
  apply String.ext
  simp [String.data_append]

theorem append_assoc (a b c : String) : a ++ b ++ c = a ++ (b ++ c) := by
  apply String.ext
  simp [String.data_append]

/-- The directory and file parts of a walk path, and the prefix the callbacks build
from them: the global prefix, `/`, and the relative directory with its closing `/`. -/
theorem walkPath_registryKey (globalPrefix root d file key : String) (h : '/' ∉ file.data) :
    (Split (walkPath root d file)).2 = file ∧
    globalPrefix ++ "/" ++ TrimPrefix (Split (walkPath root d file)).1 (root ++ "/") ++ key =
      registryKey globalPrefix d key := by
  by_cases hd : d = ""
  · simp only [walkPath, registryKey, hd, if_true]
    rw [Split_dir_file root file h]
    refine ⟨rfl, ?_⟩
    have := TrimPrefix_append (root ++ "/") ""
    rw [append_empty] at this
    simp only [this, append_empty]
  · simp only [walkPath, registryKey, hd, if_false]
    rw [Split_dir_file (root ++ "/" ++ d) file h]
    refine ⟨rfl, ?_⟩
    have := TrimPrefix_append (root ++ "/") (d ++ "/")
    rw [← append_assoc] at this
    rw [this]
    simp only [append_assoc]

/-! ## The callbacks of the two walks -/

theorem v2WalkFn_accepted (profile : String) (cfg : CoreConfig) (env : Env) (e : WalkEntry)
    (t : Trace) (root : String) (herr : e.err = none) (hdir : e.isDir = false)
    (hext : isAcceptablePropertyExtensions cfg e.name = true)
    (hrel : env.rel cfg.ConfigPathV2 = .ok root) :
    v2WalkFn profile cfg env e t =
      if determineCorrectConfigFile (determineConfigFile profile) (Split e.path).2 = true then
        v2Process cfg env e.path (Split e.path).1 root t
      else (t, .ok ()) := by
  simp only [v2WalkFn, herr, hdir, hext, hrel]
  by_cases h : determineCorrectConfigFile (determineConfigFile profile) (Split e.path).2 = true
  · simp [h]
  · simp [h]

theorem v1WalkFn_accepted (cfg : CoreConfig) (env : Env) (e : WalkEntry)
    (t : Trace) (root : String) (herr : e.err = none) (hdir : e.isDir = false)
    (hext : isAcceptablePropertyExtensions cfg e.name = true)
    (hrel : env.rel cfg.ConfigPath = .ok root) :
    v1WalkFn cfg env e t = v1Process cfg env e.path (Split e.path).1 root t := by
  simp [v1WalkFn, herr, hdir, hext, hrel]

theorem v2Process_trace (cfg : CoreConfig) (env : Env) (path dir configPath : String)
    (t : Trace) (m : List (String × Value)) (kvs : List KV)
    (hload : env.loadToml path = some m)
    (htr : traverse env.FormatFloat "" (.map m) = .ok kvs) :
    (v2Process cfg env path dir configPath t).1 =
      (putLoop env (kvs.map fun v =>
        ⟨cfg.GlobalPrefix ++ "/" ++ TrimPrefix dir (configPath ++ "/") ++ v.Key, v.Value⟩) t).1 := by
  simp only [v2Process, hload, htr]
  split
  · rename_i heq
    rw [heq]
  · rename_i heq
    rw [heq]
    split <;> rfl

theorem v1Process_trace (cfg : CoreConfig) (env : Env) (path dir configPath : String)
    (t : Trace) (props : List (String × String))
    (hread : readPropertyFile cfg env path = .ok props) :
    (v1Process cfg env path dir configPath t).1 =
      (putLoop env (props.map fun kv =>
        ⟨cfg.GlobalPrefix ++ "/" ++ TrimPrefix dir (configPath ++ "/") ++ kv.1, kv.2⟩) t).1 := by
  simp only [v1Process, hread]
  split
  · rename_i heq
    rw [heq]
  · rename_i heq
    rw [heq]

theorem determineCorrectConfigFile_iff (target f : String) :
    determineCorrectConfigFile target f = true ↔ f = target := by
  simp [determineCorrectConfigFile]

/-- C6. Written registry layout: for a file of either pipeline at the walk path of the
relative directory `d`, every PUT issued for the file carries, in order, the key
`GlobalPrefix/d/path` (`GlobalPrefix/path` when `d` is empty) and the value of an entry
produced from the file, and when no PUT fails there is exactly one PUT per entry.  The
entries of a structured file are those `traverse` returns for its map; the entries of a
legacy file are the pairs `readPropertyFile` returns (a YAML file never gets that far:
`readYamlFile` returns an error or panics). -/
theorem registry_layout (profile : String) (cfg : CoreConfig) (env : Env) (e : WalkEntry)
    (t : Trace) (root d file : String)
    (herr : e.err = none) (hdir : e.isDir = false)
    (hext : isAcceptablePropertyExtensions cfg e.name = true)
    (hfile : '/' ∉ file.data) (hpath : e.path = walkPath root d file) :
    (∀ (m : List (String × Value)) (kvs : List KV),
      env.rel cfg.ConfigPathV2 = .ok root → file = determineConfigFile profile →
      env.loadToml e.path = some m → traverse env.FormatFloat "" (.map m) = .ok kvs →
      (∃ calls, (v2WalkFn profile cfg env e t).1 = t ++ calls ∧
        calls.map Call.request <+:
          kvs.map (fun v => Request.put ⟨registryKey cfg.GlobalPrefix d v.Key, v.Value⟩)) ∧
      ((∀ n p, env.putErr n p = none) →
        (v2WalkFn profile cfg env e t).1 =
          t ++ kvs.map (fun v =>
            (⟨.put ⟨registryKey cfg.GlobalPrefix d v.Key, v.Value⟩, none⟩ : Call)))) ∧
    (∀ (props : List (String × String)),
      env.rel cfg.ConfigPath = .ok root → readPropertyFile cfg env e.path = .ok props →
      (∃ calls, (v1WalkFn cfg env e t).1 = t ++ calls ∧
        calls.map Call.request <+:
          props.map (fun kv => Request.put ⟨registryKey cfg.GlobalPrefix d kv.1, kv.2⟩)) ∧
      ((∀ n p, env.putErr n p = none) →
        (v1WalkFn cfg env e t).1 =
          t ++ props.map (fun kv =>
            (⟨.put ⟨registryKey cfg.GlobalPrefix d kv.1, kv.2⟩, none⟩ : Call)))) := by
  have hkey : ∀ key : String,
      cfg.GlobalPrefix ++ "/" ++ TrimPrefix (Split e.path).1 (root ++ "/") ++ key =
        registryKey cfg.GlobalPrefix d key := by
    intro key
    rw [hpath]
    exact (walkPath_registryKey cfg.GlobalPrefix root d file key hfile).2
  have hsplit : (Split e.path).2 = file := by
    rw [hpath]
    exact (walkPath_registryKey cfg.GlobalPrefix root d file "" hfile).1
  refine ⟨?_, ?_⟩
  · intro m kvs hrel hsel hload htr
    have hfn : v2WalkFn profile cfg env e t =
        v2Process cfg env e.path (Split e.path).1 root t := by
      rw [v2WalkFn_accepted profile cfg env e t root herr hdir hext hrel, hsplit, hsel]
      simp [determineCorrectConfigFile]
    rw [hfn, v2Process_trace cfg env e.path _ root t m kvs hload htr]
    simp only [hkey]
    refine ⟨?_, ?_⟩
    · have := putLoop_requests env
        (kvs.map fun v => (⟨registryKey cfg.GlobalPrefix d v.Key, v.Value⟩ : KVPair)) t
      simpa [List.map_map, Function.comp_def] using this
    · intro hput
      rw [putLoop_no_error env hput]
      simp [List.map_map, Function.comp_def]
  · intro props hrel hread
    rw [v1WalkFn_accepted cfg env e t root herr hdir hext hrel,
      v1Process_trace cfg env e.path _ root t props hread]
    simp only [hkey]
    refine ⟨?_, ?_⟩
    · have := putLoop_requests env
        (props.map fun kv => (⟨registryKey cfg.GlobalPrefix d kv.1, kv.2⟩ : KVPair)) t
      simpa [List.map_map, Function.comp_def] using this
    · intro hput
      rw [putLoop_no_error env hput]
      simp [List.map_map, Function.comp_def]

theorem registry_layout_witness :
    (v2WalkFn "dev" sampleConfig sampleEnv sampleDevEntry []).1 =
      [] ++ [⟨"Service/Host", "localhost"⟩, ⟨"Service/Port", "48080"⟩].map (fun v : KV =>
        (⟨.put ⟨registryKey "config" "core-data" v.Key, v.Value⟩, none⟩ : Call)) ∧
    (v1WalkFn sampleConfig sampleEnv samplePropsEntry []).1 =
      [] ++ [("server.port", "48080"), ("server.host", "localhost")].map
        (fun kv : String × String =>
          (⟨.put ⟨registryKey "config" "core-data" kv.1, kv.2⟩, none⟩ : Call)) ∧
    registryKey "config" "core-data" "Service/Port" = "config/core-data/Service/Port" ∧
    registryKey "config" "" "Service/Port" = "config/Service/Port" :=
  ⟨((registry_layout "dev" sampleConfig sampleEnv sampleDevEntry [] "res/v2" "core-data"
      "configuration-dev.toml" rfl rfl (by decide) (by decide) (by decide)).1
      sampleToml [⟨"Service/Host", "localhost"⟩, ⟨"Service/Port", "48080"⟩]
      rfl (by decide) rfl (by decide)).2 (fun _ _ => rfl),
   ((registry_layout "dev" sampleConfig sampleEnv samplePropsEntry [] "res/properties"
      "core-data" "application.properties" rfl rfl (by decide) (by decide) (by decide)).2
      [("server.port", "48080"), ("server.host", "localhost")] rfl (by decide)).2
      (fun _ _ => rfl),
    by decide, by decide⟩

/-- A legacy YAML file that `yaml.Unmarshal` accepts makes `readYamlFile` panic at
`structs.Map`: the callback makes no PUT and does not return, and the run ends there. -/
theorem v1WalkFn_yaml_panics (cfg : CoreConfig) (env : Env) (e : WalkEntry) (t : Trace)
    (root : String) (props : List (String × String))
    (herr : e.err = none) (hdir : e.isDir = false)
    (hext : isAcceptablePropertyExtensions cfg e.name = true)
    (hrel : env.rel cfg.ConfigPath = .ok root)
    (htoml : isTomlExtension cfg e.path = false) (hyaml : isYamlExtension cfg e.path = true)
    (hdec : env.yamlUnmarshal e.path = .ok props) :
    v1WalkFn cfg env e t = (t, .panic) ∧
    v1WalkFn sampleConfig yamlEnv sampleYamlEntry [] = ([], .panic) ∧
    main "dev" (.ok noResetConfig) (.ok ())
        { yamlEnv with walk := fun root =>
            if root = "res/properties" then [sampleYamlEntry, samplePropsEntry] else [] } =
      ([], .panic) := by
  refine ⟨?_, by decide, by decide⟩
  rw [v1WalkFn_accepted cfg env e t root herr hdir hext hrel]
  simp [v1Process, readPropertyFile, readYamlFile, htoml, hyaml, hdec]

theorem determineConfigFile_ne_default (profile : String) (h : profile ≠ "") :
    determineConfigFile profile ≠ "configuration.toml" := by
  intro heq
  rw [determineConfigFile, if_neg h] at heq
  have hd := congrArg String.data heq
  have hlen := congrArg List.length hd
  simp [String.data_append] at hlen

/-- C7. Profile selection: a file that passed the filters of the structured walk is
processed when its base name is `determineConfigFile profile` and skipped without any
effect otherwise, where the target is `configuration.toml` for the empty profile and
`configuration-<profile>.toml` for any other; with profile `dev` the sibling
`configuration-dev.toml` is selected and `configuration.toml` is not, and no non-empty
profile selects `configuration.toml`. -/
theorem profile_selection (profile f : String) :
    (determineCorrectConfigFile (determineConfigFile profile) f = true ↔
      f = determineConfigFile profile) ∧
    determineConfigFile "" = "configuration.toml" ∧
    (profile ≠ "" → determineConfigFile profile = "configuration-" ++ profile ++ ".toml") ∧
    (∀ (cfg : CoreConfig) (env : Env) (e : WalkEntry) (t : Trace) (root : String),
      e.err = none → e.isDir = false → isAcceptablePropertyExtensions cfg e.name = true →
      env.rel cfg.ConfigPathV2 = .ok root → (Split e.path).2 = f →
      (f = determineConfigFile profile →
        v2WalkFn profile cfg env e t = v2Process cfg env e.path (Split e.path).1 root t) ∧
      (f ≠ determineConfigFile profile → v2WalkFn profile cfg env e t = (t, .ok ()))) ∧
    determineCorrectConfigFile (determineConfigFile "dev") "configuration-dev.toml" = true ∧
    determineCorrectConfigFile (determineConfigFile "dev") "configuration.toml" = false ∧
    (profile ≠ "" →
      determineCorrectConfigFile (determineConfigFile profile) "configuration.toml" = false) := by
  refine ⟨determineCorrectConfigFile_iff _ _, rfl, ?_, ?_, by decide, by decide, ?_⟩
  · intro h
    rw [determineConfigFile, if_neg h]
  · intro cfg env e t root herr hdir hext hrel hf
    rw [v2WalkFn_accepted profile cfg env e t root herr hdir hext hrel, hf]
    refine ⟨?_, ?_⟩
    · intro h
      rw [if_pos ((determineCorrectConfigFile_iff _ _).2 h)]
    · intro h
      rw [if_neg (fun hh => h ((determineCorrectConfigFile_iff _ _).1 hh))]
  · intro h
    have hne := determineConfigFile_ne_default profile h
    cases hc : determineCorrectConfigFile (determineConfigFile profile) "configuration.toml" with
    | false => rfl
    | true => exact absurd ((determineCorrectConfigFile_iff _ _).1 hc).symm hne

theorem profile_selection_witness :
    v2WalkFn "dev" sampleConfig sampleEnv sampleDefaultEntry [] = ([], .ok ()) ∧
    v2WalkFn "dev" sampleConfig sampleEnv sampleDevEntry [] =
      v2Process sampleConfig sampleEnv "res/v2/core-data/configuration-dev.toml"
        (Split "res/v2/core-data/configuration-dev.toml").1 "res/v2" [] ∧
    determineConfigFile "dev" = "configuration-" ++ "dev" ++ ".toml" :=
  ⟨((profile_selection "dev" "configuration.toml").2.2.2.1 sampleConfig sampleEnv
      sampleDefaultEntry [] "res/v2" rfl rfl (by decide) rfl (by decide)).2 (by decide),
   ((profile_selection "dev" "configuration-dev.toml").2.2.2.1 sampleConfig sampleEnv
      sampleDevEntry [] "res/v2" rfl rfl (by decide) rfl (by decide)).1 (by decide),
   (profile_selection "dev" "").2.2.1 (by decide)⟩

/-! ## The registry after a run -/

theorem replay_cons (c : Call) (t : Trace) (s : Registry) :
    replay (c :: t) s = replay t (applyCall s c) := rfl

theorem applyCall_cases (c : Call) (s s2 : Registry) (k : String) :
    applyCall s c k = applyCall s2 c k ∨ (applyCall s c k = s k ∧ applyCall s2 c k = s2 k) := by
  obtain ⟨req, er⟩ := c
  cases er with
  | some x => right; exact ⟨rfl, rfl⟩
  | none =>
    cases req with
    | put p =>
      by_cases h : k = p.Key
      · left; simp [applyCall, h]
      · right; simp [applyCall, h]
    | deleteTree pre =>
      by_cases h : pre.data.isPrefixOf k.data = true
      · left; simp [applyCall, h]
      · right; simp [applyCall, h]

theorem replay_cases :
    ∀ (t : Trace) (s s2 : Registry) (k : String),
      replay t s k = replay t s2 k ∨ (replay t s k = s k ∧ replay t s2 k = s2 k) := by
  intro t
  induction t with
  | nil => intro s s2 k; right; exact ⟨rfl, rfl⟩
  | cons c t ih =>
    intro s s2 k
    rw [replay_cons, replay_cons]
    rcases ih (applyCall s c) (applyCall s2 c) k with h | ⟨h1, h2⟩
    · left; exact h
    · rcases applyCall_cases c s s2 k with hc | ⟨hc1, hc2⟩
      · left; rw [h1, h2, hc]
      · right; exact ⟨by rw [h1, hc1], by rw [h2, hc2]⟩

theorem replay_idempotent (t : Trace) (s : Registry) : replay t (replay t s) = replay t s := by
  funext k
  rcases replay_cases t (replay t s) s k with h | ⟨h, _⟩
  · exact h
  · exact h

/-- C9 (as stated, refuted). With the reset flag set and a recursive delete that returns
an error, the run goes on and both pipelines issue their PUTs after the failed delete. -/
theorem reset_failure_counterexample :
    sampleConfig.IsReset = true ∧
    resetFailsEnv.deleteTreeErr resetFailsEnv.CoreConfigurationGlobalPrefix =
      some "Unexpected response code: 500" ∧
    main "" (.ok sampleConfig) (.ok ()) resetFailsEnv =
      ([⟨.deleteTree "config", some "Unexpected response code: 500"⟩,
        ⟨.put ⟨"config/core-data/Service/Host", "localhost"⟩, none⟩,
        ⟨.put ⟨"config/core-data/Service/Port", "48080"⟩, none⟩,
        ⟨.put ⟨"config/core-data/server.port", "48080"⟩, none⟩,
        ⟨.put ⟨"config/core-data/server.host", "localhost"⟩, none⟩], .ok ()) := by
  refine ⟨rfl, rfl, ?_⟩
  decide

/-! ## Runs that start after earlier calls -/

theorem replay_append (t0 t : Trace) (s : Registry) :
    replay (t0 ++ t) s = replay t (replay t0 s) := by
  simp [replay, List.foldl_append]

theorem afterCalls_failed (env : Env) (req : Request) (x : String) :
    env.afterCalls [⟨req, some x⟩] = env.after 1 := rfl

theorem putLoop_after (env : Env) (t0 : Trace) :
    ∀ (ps : List KVPair) (t : Trace),
      putLoop env ps (t0 ++ t) = after t0 (putLoop (env.afterCalls t0) ps t) := by
  intro ps
  induction ps with
  | nil => intro t; rfl
  | cons p rest ih =>
    intro t
    rw [putLoop, putLoop]
    simp only [consulPut, Env.afterCalls, List.length_append]
    cases hx : env.putErr (t0.length + t.length) p with
    | some x => simp [after]
    | none =>
      simp only []
      rw [List.append_assoc]
      exact ih _

theorem v2Process_after (cfg : CoreConfig) (env : Env) (path dir configPath : String)
    (t0 t : Trace) :
    v2Process cfg env path dir configPath (t0 ++ t) =
      after t0 (v2Process cfg (env.afterCalls t0) path dir configPath t) := by
  have h1 : (env.afterCalls t0).loadToml = env.loadToml := rfl
  have h2 : (env.afterCalls t0).FormatFloat = env.FormatFloat := rfl
  have h3 : (env.afterCalls t0).readBack = env.readBack := rfl
  have h4 : (env.afterCalls t0).registry = replay t0 env.registry := rfl
  simp only [v2Process, h1, h2, h3, h4, putLoop_after]
  cases env.loadToml path with
  | none => rfl
  | some m =>
    simp only []
    cases traverse env.FormatFloat "" (.map m) with
    | panic => rfl
    | ok kvs =>
      simp only []
      rcases hp : putLoop (env.afterCalls t0) (kvs.map fun v =>
        (⟨cfg.GlobalPrefix ++ "/" ++ TrimPrefix dir (configPath ++ "/") ++ v.Key, v.Value⟩ :
          KVPair)) t with ⟨t1, r⟩
      cases r with
      | some x => simp [after, hp]
      | none =>
        cases hb : env.readBack path (replay t1 (replay t0 env.registry)) <;>
          simp [after, hp, hb, replay_append]
    | err x =>
      simp only []
      rcases hp : putLoop (env.afterCalls t0) ([].map fun v : KV =>
        (⟨cfg.GlobalPrefix ++ "/" ++ TrimPrefix dir (configPath ++ "/") ++ v.Key, v.Value⟩ :
          KVPair)) t with ⟨t1, r⟩
      cases r with
      | some x => simp [after, hp]
      | none =>
        cases hb : env.readBack path (replay t1 (replay t0 env.registry)) <;>
          simp [after, hp, hb, replay_append]

theorem v1Process_after (cfg : CoreConfig) (env : Env) (path dir configPath : String)
    (t0 t : Trace) :
    v1Process cfg env path dir configPath (t0 ++ t) =
      after t0 (v1Process cfg (env.afterCalls t0) path dir configPath t) := by
  have h1 : readPropertyFile cfg (env.afterCalls t0) path = readPropertyFile cfg env path := rfl
  simp only [v1Process, h1, putLoop_after]
  cases readPropertyFile cfg env path with
  | err x => rfl
  | panic => rfl
  | ok props =>
    simp only []
    rcases hp : putLoop (env.afterCalls t0) (props.map fun kv =>
      (⟨cfg.GlobalPrefix ++ "/" ++ TrimPrefix dir (configPath ++ "/") ++ kv.1, kv.2⟩ :
        KVPair)) t with ⟨t1, r⟩
    cases r with
    | some x => simp [after, hp]
    | none => simp [after, hp]

theorem v2WalkFn_after (profile : String) (cfg : CoreConfig) (env : Env) (e : WalkEntry)
    (t0 t : Trace) :
    v2WalkFn profile cfg env e (t0 ++ t) =
      after t0 (v2WalkFn profile cfg (env.afterCalls t0) e t) := by
  have h1 : (env.afterCalls t0).rel = env.rel := rfl
  simp only [v2WalkFn, h1, v2Process_after]
  cases e.err with
  | some x => rfl
  | none =>
    simp only []
    split
    · rfl
    · cases env.rel cfg.ConfigPathV2 with
      | error x => rfl
      | ok configPath =>
        simp only []
        split <;> rfl

theorem v1WalkFn_after (cfg : CoreConfig) (env : Env) (e : WalkEntry) (t0 t : Trace) :
    v1WalkFn cfg env e (t0 ++ t) = after t0 (v1WalkFn cfg (env.afterCalls t0) e t) := by
  have h1 : (env.afterCalls t0).rel = env.rel := rfl
  simp only [v1WalkFn, h1, v1Process_after]
  cases e.err with
  | some x => rfl
  | none =>
    simp only []
    split
    · rfl
    · cases env.rel cfg.ConfigPath with
      | error x => rfl
      | ok configPath => rfl

theorem Walk_after (fn fn2 : WalkEntry → Trace → Trace × Result Unit) (t0 : Trace)
    (h : ∀ e t, fn e (t0 ++ t) = after t0 (fn2 e t)) :
    ∀ (es : List WalkEntry) (t : Trace), Walk fn es (t0 ++ t) = after t0 (Walk fn2 es t) := by
  intro es
  induction es with
  | nil => intro t; rfl
  | cons e es ih =>
    intro t
    rw [Walk, Walk, h]
    rcases hf : fn2 e t with ⟨t1, r⟩
    cases r with
    | ok u => simp only [after]; exact ih t1
    | err x => rfl
    | panic => rfl

theorem loadV2ConfigFromPath_after (profile : String) (cfg : CoreConfig) (env : Env)
    (t0 t : Trace) :
    loadV2ConfigFromPath profile cfg env (t0 ++ t) =
      after t0 (loadV2ConfigFromPath profile cfg (env.afterCalls t0) t) := by
  have h1 : (env.afterCalls t0).walk = env.walk := rfl
  rw [loadV2ConfigFromPath, loadV2ConfigFromPath, h1,
    Walk_after _ (v2WalkFn profile cfg (env.afterCalls t0)) t0
      (v2WalkFn_after profile cfg env · t0 ·)]
  rcases Walk (v2WalkFn profile cfg (env.afterCalls t0)) (env.walk cfg.ConfigPathV2) t
    with ⟨t1, r⟩
  cases r <;> rfl

theorem loadConfigFromPath_after (cfg : CoreConfig) (env : Env) (t0 t : Trace) :
    loadConfigFromPath cfg env (t0 ++ t) =
      after t0 (loadConfigFromPath cfg (env.afterCalls t0) t) := by
  have h1 : (env.afterCalls t0).walk = env.walk := rfl
  rw [loadConfigFromPath, loadConfigFromPath, h1,
    Walk_after _ (v1WalkFn cfg (env.afterCalls t0)) t0 (v1WalkFn_after cfg env · t0 ·)]
  rcases Walk (v1WalkFn cfg (env.afterCalls t0)) (env.walk cfg.ConfigPath) t with ⟨t1, r⟩
  cases r <;> rfl

/-- C9 (amended). When the reset flag is set and the recursive delete returns an error,
the error is only printed and the run continues: after the failed delete `main` makes
exactly the calls, with the same outcome, of a run whose reset flag is not set. -/
theorem reset_failure_continues (profile : String) (cfg : CoreConfig) (env : Env) (x : String)
    (hreset : cfg.IsReset = true)
    (hdel : env.deleteTreeErr env.CoreConfigurationGlobalPrefix = some x) :
    main profile (.ok cfg) (.ok ()) env =
      after [⟨.deleteTree env.CoreConfigurationGlobalPrefix, some x⟩]
        (main profile (.ok { cfg with IsReset := false }) (.ok ()) (env.after 1)) := by
  have hL : main profile (.ok cfg) (.ok ()) env =
      match loadV2ConfigFromPath profile cfg env
          [⟨.deleteTree env.CoreConfigurationGlobalPrefix, some x⟩] with
      | (t1, .panic) => (t1, .panic)
      | (t1, _) => loadConfigFromPath cfg env t1 := by
    simp only [main, hreset, removeStoredConfig, hdel, if_true, List.nil_append]
  have hR : main profile (.ok { cfg with IsReset := false }) (.ok ()) (env.after 1) =
      match loadV2ConfigFromPath profile cfg (env.after 1) [] with
      | (t1, .panic) => (t1, .panic)
      | (t1, _) => loadConfigFromPath cfg (env.after 1) t1 := rfl
  have h2 := loadV2ConfigFromPath_after profile cfg env
    [⟨.deleteTree env.CoreConfigurationGlobalPrefix, some x⟩] []
  simp only [List.append_nil, afterCalls_failed] at h2
  rw [hL, hR, h2]
  cases hres : loadV2ConfigFromPath profile cfg (env.after 1) [] with
  | mk t1 r =>
    have h1 := loadConfigFromPath_after cfg env
      [⟨.deleteTree env.CoreConfigurationGlobalPrefix, some x⟩] t1
    simp only [afterCalls_failed] at h1
    cases r with
    | ok u => simp only [after]; exact h1
    | err y => simp only [after]; exact h1
    | panic => rfl

theorem reset_failure_continues_witness :
    main "dev" (.ok sampleConfig) (.ok ()) resetFailsEnv =
      after [⟨.deleteTree resetFailsEnv.CoreConfigurationGlobalPrefix,
          some "Unexpected response code: 500"⟩]
        (main "dev" (.ok { sampleConfig with IsReset := false }) (.ok ())
          (resetFailsEnv.after 1)) :=
  reset_failure_continues "dev" sampleConfig resetFailsEnv "Unexpected response code: 500" rfl rfl

/-! ## Failures in the legacy walk -/

theorem Walk_stops (fn : WalkEntry → Trace → Trace × Result Unit) (e : WalkEntry)
    (post : List WalkEntry) (x : String) :
    ∀ (pre : List WalkEntry) (t t1 t2 : Trace),
      Walk fn pre t = (t1, .ok ()) → fn e t1 = (t2, .err x) →
      Walk fn (pre ++ e :: post) t = (t2, .err x) := by
  intro pre
  induction pre with
  | nil =>
    intro t t1 t2 hpre hfail
    simp only [Walk, Prod.mk.injEq] at hpre
    rw [List.nil_append, Walk, hpre.1, hfail]
  | cons a pre ih =>
    intro t t1 t2 hpre hfail
    rw [List.cons_append, Walk]
    rw [Walk] at hpre
    cases ha : fn a t with
    | mk ta ra =>
      rw [ha] at hpre
      cases ra with
      | ok u =>
        simp only [] at hpre ⊢
        exact ih ta t1 t2 hpre hfail
      | err y => simp at hpre
      | panic => simp at hpre

theorem v1Process_put_error (cfg : CoreConfig) (env : Env) (path dir configPath : String)
    (t t2 : Trace) (props : List (String × String)) (x : String)
    (hread : readPropertyFile cfg env path = .ok props)
    (hfail : v1Process cfg env path dir configPath t = (t2, .err x)) :
    ∃ done p rest,
      props.map (fun kv => (⟨cfg.GlobalPrefix ++ "/" ++ TrimPrefix dir (configPath ++ "/") ++ kv.1,
        kv.2⟩ : KVPair)) = done ++ p :: rest ∧
      t2 = t ++ (done.map (fun p => (⟨.put p, none⟩ : Call)) ++ [⟨.put p, some x⟩]) := by
  simp only [v1Process, hread] at hfail
  rcases putLoop_spec env (props.map fun kv =>
    (⟨cfg.GlobalPrefix ++ "/" ++ TrimPrefix dir (configPath ++ "/") ++ kv.1, kv.2⟩ : KVPair)) t
    with ⟨h1, h2⟩ | ⟨y, done, p, rest, h1, h2, h3⟩
  · split at hfail
    · rename_i heq
      rw [heq] at h1
      simp at h1
    · simp at hfail
  · split at hfail
    · rename_i heq
      rw [heq] at h1 h3
      simp only [Prod.mk.injEq, Result.err.injEq] at hfail
      simp only [Option.some.injEq] at h1
      obtain ⟨ht, hx⟩ := hfail
      subst ht hx h1
      exact ⟨done, p, rest, h2, h3⟩
    · simp at hfail

/-- C10 (as stated, refuted). A failure in one legacy file ends the walk: when the first
file cannot be decoded, the later accepted file, which on its own would be written, is
neither decoded nor written; and when the first PUT of the first file fails, neither
its second entry nor the later file is written. -/
theorem legacy_failure_counterexample :
    decodeFailsEnv.walk sampleConfig.ConfigPath = [samplePropsEntry, sampleLaterEntry] ∧
    v1WalkFn sampleConfig decodeFailsEnv sampleLaterEntry [] =
      ([⟨.put ⟨"config/metadata/server.port", "48081"⟩, none⟩], .ok ()) ∧
    loadConfigFromPath sampleConfig decodeFailsEnv [] = ([], .ok ()) ∧
    putFailsEnv.walk sampleConfig.ConfigPath = [samplePropsEntry, sampleLaterEntry] ∧
    loadConfigFromPath sampleConfig putFailsEnv [] =
      ([⟨.put ⟨"config/core-data/server.port", "48080"⟩,
        some "Unexpected response code: 500"⟩], .ok ()) := by
  refine ⟨rfl, ?_, ?_, rfl, ?_⟩ <;> decide

/-- C10 (amended). A failure in one legacy file ends the legacy walk: when decoding a
file returns an error no PUT is made for it, when a PUT for one of its entries fails
the entries after that one are not written, and in both cases the callback returns the
error, which stops `filepath.Walk`, so no later file is decoded or written;
`loadConfigFromPath` prints the error and returns. -/
theorem legacy_failure_aborts_walk (cfg : CoreConfig) (env : Env) :
    (∀ (path dir configPath : String) (t : Trace) (x : String),
      readPropertyFile cfg env path = .err x →
      v1Process cfg env path dir configPath t = (t, .err x)) ∧
    (∀ (path dir configPath : String) (t t2 : Trace) (props : List (String × String))
      (x : String),
      readPropertyFile cfg env path = .ok props →
      v1Process cfg env path dir configPath t = (t2, .err x) →
      ∃ done p rest,
        props.map (fun kv =>
          (⟨cfg.GlobalPrefix ++ "/" ++ TrimPrefix dir (configPath ++ "/") ++ kv.1, kv.2⟩ :
            KVPair)) = done ++ p :: rest ∧
        t2 = t ++ (done.map (fun p => (⟨.put p, none⟩ : Call)) ++ [⟨.put p, some x⟩])) ∧
    (∀ (pre post : List WalkEntry) (e : WalkEntry) (t t1 t2 : Trace) (x : String),
      env.walk cfg.ConfigPath = pre ++ e :: post →
      Walk (v1WalkFn cfg env) pre t = (t1, .ok ()) →
      v1WalkFn cfg env e t1 = (t2, .err x) →
      loadConfigFromPath cfg env t = (t2, .ok ())) := by
  refine ⟨?_, ?_, ?_⟩
  · intro path dir configPath t x hread
    simp only [v1Process, hread]
  · intro path dir configPath t t2 props x hread hfail
    exact v1Process_put_error cfg env path dir configPath t t2 props x hread hfail
  · intro pre post e t t1 t2 x hwalk hpre hfail
    rw [loadConfigFromPath, hwalk, Walk_stops (v1WalkFn cfg env) e post x pre t t1 t2 hpre hfail]

theorem legacy_failure_aborts_walk_witness :
    loadConfigFromPath sampleConfig decodeFailsEnv
        [⟨.deleteTree "config", none⟩] = ([⟨.deleteTree "config", none⟩], .ok ()) ∧
    v1Process sampleConfig decodeFailsEnv "res/properties/core-data/application.properties"
        "res/properties/core-data/" "res/properties" [] =
      ([], .err "open res/properties/core-data/application.properties: permission denied") :=
  ⟨(legacy_failure_aborts_walk sampleConfig decodeFailsEnv).2.2 [] [sampleLaterEntry]
      samplePropsEntry [⟨.deleteTree "config", none⟩] [⟨.deleteTree "config", none⟩]
      [⟨.deleteTree "config", none⟩]
      "open res/properties/core-data/application.properties: permission denied"
      rfl rfl (by decide),
   (legacy_failure_aborts_walk sampleConfig decodeFailsEnv).1
      "res/properties/core-data/application.properties" "res/properties/core-data/"
      "res/properties" []
      "open res/properties/core-data/application.properties: permission denied" rfl⟩

/-! ## The reachability check -/

theorem pollLoop_unavailable (failLimit : Int) (h : 0 < failLimit) (url : String) :
    ∀ (fuel gets : Nat), pollLoop failLimit (unavailableAgent url) fuel 0 gets = none := by
  intro fuel
  induction fuel with
  | zero => intro gets; rfl
  | succ fuel ih =>
    intro gets
    rw [pollLoop, if_pos h]
    simp only [unavailableAgent]
    rw [if_neg (by decide)]
    exact ih (gets + 1)

/-- C11. The poll is not bounded: a response outside 2xx neither counts as a failure nor
ends the loop.  Against an agent that always answers 503 `getConsulClient` never
returns, whatever the number of iterations allowed; and with a fail limit of 1, against
an agent that answers 503 twice and then 200, it makes three GET requests. -/
theorem getConsulClient_poll_unbounded :
    (∀ fuel : Nat, getConsulClient sampleConfig unavailableAgent (fun _ => .ok ()) fuel = none) ∧
    getConsulClient { sampleConfig with FailLimit := 1 } slowAgent (fun _ => .ok ()) 3 =
      some (.ok (), 3) ∧
    getConsulClient { sampleConfig with FailLimit := 1 } unreachableAgent (fun _ => .ok ()) 2 =
      some (.error "Cannot get connection to Consul", 1) := by
  refine ⟨?_, ?_, ?_⟩
  · intro fuel
    simp only [getConsulClient]
    rw [pollLoop_unavailable sampleConfig.FailLimit (by decide)]
  · rfl
  · rfl

/-! ## The extension filter -/

theorem extRev_ext :
    ∀ (g X acc : List Char), '/' ∉ g → '.' ∉ g →
      extRev (g ++ '.' :: X) acc = '.' :: (g.reverse ++ acc) := by
  intro g
  induction g with
  | nil => intro X acc _ _; simp [extRev]
  | cons c g ih =>
    intro X acc h1 h2
    have hc1 : c ≠ '/' := fun hh => h1 (by rw [hh]; exact List.mem_cons_self _ _)
    have hc2 : c ≠ '.' := fun hh => h2 (by rw [hh]; exact List.mem_cons_self _ _)
    have hg1 : '/' ∉ g := fun hh => h1 (List.mem_cons_of_mem _ hh)
    have hg2 : '.' ∉ g := fun hh => h2 (List.mem_cons_of_mem _ hh)
    rw [List.cons_append, extRev, if_neg hc1, if_neg hc2, ih X (c :: acc) hg1 hg2]
    simp

theorem extRev_none :
    ∀ (g X acc : List Char), '/' ∉ g → '.' ∉ g →
      extRev g acc = [] ∧ extRev (g ++ '/' :: X) acc = [] := by
  intro g
  induction g with
  | nil => intro X acc _ _; simp [extRev]
  | cons c g ih =>
    intro X acc h1 h2
    have hc1 : c ≠ '/' := fun hh => h1 (by rw [hh]; exact List.mem_cons_self _ _)
    have hc2 : c ≠ '.' := fun hh => h2 (by rw [hh]; exact List.mem_cons_self _ _)
    have hg1 : '/' ∉ g := fun hh => h1 (List.mem_cons_of_mem _ hh)
    have hg2 : '.' ∉ g := fun hh => h2 (List.mem_cons_of_mem _ hh)
    rw [List.cons_append, extRev, extRev, if_neg hc1, if_neg hc2, if_neg hc1, if_neg hc2]
    exact ih X (c :: acc) hg1 hg2

theorem isAcceptablePropertyExtensions_iff (cfg : CoreConfig) (f : String) :
    isAcceptablePropertyExtensions cfg f = true ↔ Ext f ∈ cfg.AcceptablePropertyExtensions := by
  simp only [isAcceptablePropertyExtensions, List.any_eq_true, beq_iff_eq]
  constructor
  · rintro ⟨v, hv, hveq⟩
    rw [← hveq]
    exact hv
  · intro h
    exact ⟨Ext f, h, rfl⟩

/-- C13. Extension filtering: `isAcceptablePropertyExtensions` is true exactly when the
extension of the file name, the suffix of its last path element that starts at the
final `.` (empty when that element has no `.`), is in `AcceptablePropertyExtensions`;
for a directory or a file whose extension is not in the list both callbacks make no
PUT, and return no error when the walk reported none for the entry. -/
theorem extension_filtering (cfg : CoreConfig) (f : String) :
    (isAcceptablePropertyExtensions cfg f = true ↔
      Ext f ∈ cfg.AcceptablePropertyExtensions) ∧
    (∀ a b : String, '/' ∉ b.data → '.' ∉ b.data → Ext (a ++ "." ++ b) = "." ++ b) ∧
    (∀ a b : String, '/' ∉ b.data → '.' ∉ b.data → Ext (a ++ "/" ++ b) = "") ∧
    ('/' ∉ f.data → '.' ∉ f.data → Ext f = "") ∧
    (∀ (profile : String) (env : Env) (e : WalkEntry) (t : Trace),
      (e.isDir = true ∨ Ext e.name ∉ cfg.AcceptablePropertyExtensions) →
      (v2WalkFn profile cfg env e t).1 = t ∧ (v1WalkFn cfg env e t).1 = t ∧
      (e.err = none →
        v2WalkFn profile cfg env e t = (t, .ok ()) ∧ v1WalkFn cfg env e t = (t, .ok ()))) := by
  refine ⟨isAcceptablePropertyExtensions_iff cfg f, ?_, ?_, ?_, ?_⟩
  · intro a b h1 h2
    have hdata : (a ++ "." ++ b).data.reverse = b.data.reverse ++ '.' :: a.data.reverse := by
      simp [String.data_append]
    apply String.ext
    simp only [Ext, hdata]
    rw [extRev_ext _ _ _ (by simpa using h1) (by simpa using h2)]
    simp [String.data_append]
  · intro a b h1 h2
    have hdata : (a ++ "/" ++ b).data.reverse = b.data.reverse ++ '/' :: a.data.reverse := by
      simp [String.data_append]
    apply String.ext
    simp only [Ext, hdata]
    rw [(extRev_none _ _ _ (by simpa using h1) (by simpa using h2)).2]
  · intro h1 h2
    apply String.ext
    simp only [Ext]
    rw [(extRev_none f.data.reverse [] [] (by simpa using h1) (by simpa using h2)).1]
  · intro profile env e t h
    have hskip : (e.isDir || !isAcceptablePropertyExtensions cfg e.name) = true := by
      rcases h with h | h
      · simp [h]
      · have : isAcceptablePropertyExtensions cfg e.name = false := by
          cases hc : isAcceptablePropertyExtensions cfg e.name with
          | false => rfl
          | true => exact absurd ((isAcceptablePropertyExtensions_iff cfg e.name).1 hc) h
        simp [this]
    cases herr : e.err with
    | some x =>
      refine ⟨by simp [v2WalkFn, herr], by simp [v1WalkFn, herr], ?_⟩
      intro hh
      cases hh
    | none =>
      have h2 : v2WalkFn profile cfg env e t = (t, .ok ()) := by
        simp only [v2WalkFn, herr, hskip, if_true]
      have h1 : v1WalkFn cfg env e t = (t, .ok ()) := by
        simp only [v1WalkFn, herr, hskip, if_true]
      exact ⟨by rw [h2], by rw [h1], fun _ => ⟨h2, h1⟩⟩

theorem extension_filtering_witness :
    Ext "configuration-dev.toml" = "." ++ "toml" ∧
    v2WalkFn "dev" sampleConfig sampleEnv sampleReadmeEntry [] = ([], .ok ()) ∧
    v1WalkFn sampleConfig sampleEnv sampleReadmeEntry [] = ([], .ok ()) :=
  ⟨(extension_filtering sampleConfig "").2.1 "configuration-dev" "toml" (by decide) (by decide),
   ((extension_filtering sampleConfig "").2.2.2.2 "dev" sampleEnv sampleReadmeEntry []
      (Or.inr (by decide))).2.2 rfl⟩

/-! ## The prefix of the reset -/

/-- C12. The recursive delete is not applied to the prefix under which the run writes:
`removeStoredConfig` deletes under the package-level `pkg.CoreConfiguration.GlobalPrefix`,
whatever `GlobalPrefix` the loaded configuration has.  With the loaded prefix `config`
and the package-level prefix left empty the run issues `DeleteTree("")`, which removes
the key of another application too; with the package-level prefix `edgex` the delete
succeeds and the key left under `config` by an earlier run is still there after the
run, although the run never writes it. -/
theorem reset_deletes_under_package_prefix (env : Env) (t : Trace) :
    removeStoredConfig env t =
      t ++ [⟨.deleteTree env.CoreConfigurationGlobalPrefix,
        env.deleteTreeErr env.CoreConfigurationGlobalPrefix⟩] ∧
    sampleConfig.IsReset = true ∧ sampleConfig.GlobalPrefix = "config" ∧
    (main "dev" (.ok sampleConfig) (.ok ()) otherPrefixEnv).1.head? =
      some ⟨.deleteTree "", none⟩ ∧
    otherPrefixEnv.registry "vault/token" = some "s3" ∧
    replay (main "dev" (.ok sampleConfig) (.ok ()) otherPrefixEnv).1 otherPrefixEnv.registry
      "vault/token" = none ∧
    (main "dev" (.ok sampleConfig) (.ok ()) edgexPrefixEnv).1 =
      [⟨.deleteTree "edgex", none⟩,
        ⟨.put ⟨"config/core-data/Service/Host", "localhost"⟩, none⟩,
        ⟨.put ⟨"config/core-data/Service/Port", "48080"⟩, none⟩,
        ⟨.put ⟨"config/core-data/server.port", "48080"⟩, none⟩,
        ⟨.put ⟨"config/core-data/server.host", "localhost"⟩, none⟩] ∧
    replay (main "dev" (.ok sampleConfig) (.ok ()) edgexPrefixEnv).1 edgexPrefixEnv.registry
      "config/core-data/obsolete" = some "1" :=
  ⟨rfl, rfl, rfl, by decide, by decide, by decide, by decide, by decide⟩

/-! ## A second run -/

theorem putLoop_registry (env : Env) (s : Registry) :
    putLoop { env with registry := s } = putLoop env := by
  funext ps
  induction ps with
  | nil => rfl
  | cons p rest ih =>
    funext t
    simp only [putLoop, consulPut]
    rw [ih]

theorem v2Process_registry (cfg : CoreConfig) (env : Env) (s : Registry)
    (hrb : ∀ p s1 s2, env.readBack p s1 = env.readBack p s2)
    (path dir configPath : String) (t : Trace) :
    v2Process cfg { env with registry := s } path dir configPath t =
      v2Process cfg env path dir configPath t := by
  simp only [v2Process, putLoop_registry]
  cases env.loadToml path with
  | none => rfl
  | some m =>
    simp only []
    cases traverse env.FormatFloat "" (.map m) with
    | panic => rfl
    | ok kvs =>
      simp only []
      split
      · rfl
      · rw [hrb path (replay _ s) (replay _ env.registry)]
    | err x =>
      simp only []
      split
      · rfl
      · rw [hrb path (replay _ s) (replay _ env.registry)]

theorem v1WalkFn_registry (cfg : CoreConfig) (env : Env) (s : Registry) :
    v1WalkFn cfg { env with registry := s } = v1WalkFn cfg env := by
  funext e t
  have h : readPropertyFile cfg { env with registry := s } = readPropertyFile cfg env := rfl
  simp only [v1WalkFn, v1Process, putLoop_registry, h]

theorem main_registry (profile : String) (cfg : CoreConfig) (env : Env) (s : Registry)
    (hrb : ∀ p s1 s2, env.readBack p s1 = env.readBack p s2) :
    main profile (.ok cfg) (.ok ()) { env with registry := s } =
      main profile (.ok cfg) (.ok ()) env := by
  have h2 : v2WalkFn profile cfg { env with registry := s } = v2WalkFn profile cfg env := by
    funext e t
    simp only [v2WalkFn, v2Process_registry cfg env s hrb]
  have h3 : removeStoredConfig { env with registry := s } = removeStoredConfig env := rfl
  simp only [main, loadV2ConfigFromPath, loadConfigFromPath, v1WalkFn_registry, h2, h3]

/-- When the outcome of the read-back does not depend on what the registry holds, a
second run makes the calls of the first and leaves the registry as the first left it. -/
theorem second_run_same_registry (profile : String) (cfg : CoreConfig) (env : Env)
    (hrb : ∀ p s1 s2, env.readBack p s1 = env.readBack p s2) :
    main profile (.ok cfg) (.ok ()) (env.secondRun profile cfg) =
      main profile (.ok cfg) (.ok ()) env ∧
    replay (main profile (.ok cfg) (.ok ()) (env.secondRun profile cfg)).1
        (env.secondRun profile cfg).registry =
      (env.secondRun profile cfg).registry := by
  have h := main_registry profile cfg env
    (replay (main profile (.ok cfg) (.ok ()) env).1 env.registry) hrb
  refine ⟨h, ?_⟩
  simp only [Env.secondRun]
  rw [h]
  exact replay_idempotent _ _

/-- C8. A second run can leave the registry different from the first.  After the PUTs
of a structured file the callback starts a decoder that reads the registry, and when no
update arrives within a second the assertion on the nil `raw` panics.  Here the first
run writes `Port` from the first file, overwrites it from the second, writes `Timeout`
and panics at the read-back of the second file; the second run finds `Timeout` in the
registry, panics at the read-back of the first file, and leaves `Port` with the value
of the first file instead of the value the first run left. -/
theorem second_run_changes_registry :
    main "" (.ok noResetConfig) (.ok ()) readBackEnv =
      ([⟨.put ⟨"config/EdgeX_Core_Command/Service/Port", "48080"⟩, none⟩,
        ⟨.put ⟨"config/EdgeX_Core_Command/Service/Port", "48082"⟩, none⟩,
        ⟨.put ⟨"config/EdgeX_Core_Command/Service/Timeout", "soon"⟩, none⟩], .panic) ∧
    (readBackEnv.secondRun "" noResetConfig).registry
      "config/EdgeX_Core_Command/Service/Port" = some "48082" ∧
    main "" (.ok noResetConfig) (.ok ()) (readBackEnv.secondRun "" noResetConfig) =
      ([⟨.put ⟨"config/EdgeX_Core_Command/Service/Port", "48080"⟩, none⟩], .panic) ∧
    replay (main "" (.ok noResetConfig) (.ok ()) (readBackEnv.secondRun "" noResetConfig)).1
        (readBackEnv.secondRun "" noResetConfig).registry
      "config/EdgeX_Core_Command/Service/Port" = some "48080" := by
  refine ⟨by decide, by decide, by decide, by decide⟩

end ConfigSeed
